import Mathlib

/-!
Verification development for a stored-procedure comparison tool.

The repository contains several Python scripts that parse a delimited
export format of SQL Server stored procedures, normalize procedure
definitions for comparison, compute set differences between a source
and a target export, and report per-procedure diffs.

This file gives a shallow embedding of the relevant functions:

* `Py` namespace: models of the Python string primitives used by the
  scripts (`str.split()` / `' '.join`, `str.strip()`, `str.lower()`,
  `str.splitlines()`, `str.split(sep)`, `str.replace`) and of the
  concrete regular expressions appearing in the sources
  (`--[^\n]*`, `/\*.*?\*/` with DOTALL, `\s+`,
  `Label:\s*([^\n\r]+)` and `Label:\s*(\S+)` searches).
  Strings are modelled as `List Char` at the core, with `String`
  wrappers; whitespace is the ASCII whitespace set (plus NEL), the
  subset of Python's whitespace relevant to this tool.
* `Difflib` namespace: model of `difflib.SequenceMatcher` /
  `difflib.unified_diff` as used by the scripts.
* `CSP` (compare_stored_procedures.py), `Sproc` (sproc_compare.py),
  `Simple` (simple_compare.py), `Latest`
  (compare_storeprocs_latest.py), `Fixed` (fixed_compare.py):
  embeddings of the parsing / normalization / comparison functions.
* `SpecSide` namespace: definitions that follow the specification's
  words (rather than the code), used for refinement comparisons.

All definitions are structurally recursive (fuel where needed, with
the fuel bound justified in a comment) so that concrete inputs can be
evaluated by `decide`.
-/

namespace Py

/-- Whitespace as recognised by Python's `str.split()` / `str.strip()` /
regex `\s`, restricted to the ASCII range plus NEL: TAB, LF, VT, FF, CR,
FS, GS, RS, US, SPACE, NEL.  (Python additionally treats some non-Latin-1
Unicode code points as whitespace; they never occur in this tool's data.) -/
def isSpace (c : Char) : Bool :=
  decide (c.toNat = 32 ∨ (9 ≤ c.toNat ∧ c.toNat ≤ 13) ∨
    (28 ≤ c.toNat ∧ c.toNat ≤ 31) ∨ c.toNat = 133)

/-- ASCII lower-casing of one character, the effect of Python's
`str.lower()` on the ASCII range. -/
def lowerChar (c : Char) : Char :=
  if 65 ≤ c.toNat ∧ c.toNat ≤ 90 then Char.ofNat (c.toNat + 32) else c

/-- `str.lower()` on a character list. -/
def lowerL (l : List Char) : List Char := l.map lowerChar

/-- Left strip: drop leading whitespace. -/
def lstripL (l : List Char) : List Char := l.dropWhile isSpace

/-- Right strip: drop trailing whitespace. -/
def rstripL (l : List Char) : List Char := (l.reverse.dropWhile isSpace).reverse

/-- Python `str.strip()`: drop leading and trailing whitespace. -/
def stripL (l : List Char) : List Char := rstripL (lstripL l)

/-- The words of a list of characters: maximal runs of non-whitespace,
as produced by Python's `str.split()` with no separator argument. -/
def wordsL : List Char → List (List Char)
  | [] => []
  | [c] => if isSpace c then [] else [[c]]
  | c :: d :: rest =>
    if isSpace c then wordsL (d :: rest)
    else
      if isSpace d then [c] :: wordsL (d :: rest)
      else
        match wordsL (d :: rest) with
        | [] => [[c]]
        | w :: ws => (c :: w) :: ws

/-- `' '.join(text.split())`: split on whitespace runs and re-join the
words with single spaces.  This both collapses interior whitespace and
trims the ends. -/
def splitJoinL (l : List Char) : List Char := List.intercalate [' '] (wordsL l)

/-- The regex substitution `re.sub(r'\s+', ' ', text)`: replace every
maximal whitespace run by a single space (no trimming). -/
def collapseRunsL : List Char → List Char
  | [] => []
  | [c] => if isSpace c then [' '] else [c]
  | c :: d :: rest =>
    if isSpace c then
      if isSpace d then collapseRunsL (d :: rest)
      else ' ' :: collapseRunsL (d :: rest)
    else c :: collapseRunsL (d :: rest)

/-- Does the list contain two adjacent dashes (a line-comment marker)? -/
def hasDashDash : List Char → Bool
  | c :: d :: rest => (decide (c = '-') && decide (d = '-')) || hasDashDash (d :: rest)
  | _ => false

/-- Does the list contain the block-comment opener `/*`? -/
def hasSlashStar : List Char → Bool
  | c :: d :: rest => (decide (c = '/') && decide (d = '*')) || hasSlashStar (d :: rest)
  | _ => false

/-- Fuel-indexed worker for `subLineL`.  Each step consumes at least one
character of the list, so `l.length + 1` fuel always suffices; the
fuel-exhausted branch is unreachable. -/
def subLineAux : Nat → List Char → List Char
  | 0, l => l
  | _ + 1, [] => []
  | fuel + 1, '-' :: '-' :: rest =>
    subLineAux fuel (rest.dropWhile (fun c => c ≠ '\n'))
  | fuel + 1, c :: rest => c :: subLineAux fuel rest

/-- The regex substitution `re.sub(r'--[^\n]*', '', text)` (equivalently
`re.sub(r'--.*$', '', text, flags=re.MULTILINE)`): delete every
occurrence of `--` together with the rest of its line (the newline
itself is kept). -/
def subLineL (l : List Char) : List Char := subLineAux (l.length + 1) l

/-- Scan for the first occurrence of the block-comment closer `*/` and
return the remainder after it, if any. -/
def findCloseL : List Char → Option (List Char)
  | '*' :: '/' :: rest => some rest
  | _ :: rest => findCloseL rest
  | [] => none

/-- Fuel-indexed worker for `subBlockL`; each recursive call consumes at
least one character (in the comment case at least the `/*`), so
`l.length + 1` fuel always suffices. -/
def subBlockAux : Nat → List Char → List Char
  | 0, l => l
  | _ + 1, [] => []
  | fuel + 1, '/' :: '*' :: rest =>
    match findCloseL rest with
    | some rest' => subBlockAux fuel rest'
    | none => '/' :: '*' :: rest
  | fuel + 1, c :: rest => c :: subBlockAux fuel rest

/-- The regex substitution `re.sub(r'/\*.*?\*/', '', text, flags=re.DOTALL)`:
delete every span from a `/*` to the nearest following `*/`.  An
unmatched `/*` (no `*/` anywhere after it) matches nothing and is kept,
and then no later `/*` can match either, so the remainder is kept
verbatim. -/
def subBlockL (l : List Char) : List Char := subBlockAux (l.length + 1) l

end Py

/-- `' '.join(text.split())` on `String`. -/
def pySplitJoin (s : String) : String := ⟨Py.splitJoinL s.data⟩

/-- `str.strip()` on `String`. -/
def pyStrip (s : String) : String := ⟨Py.stripL s.data⟩

/-- `str.lower()` on `String`. -/
def pyLower (s : String) : String := ⟨Py.lowerL s.data⟩

namespace Py

/-- Python line-break characters recognised by `str.splitlines()`:
LF, CR, VT, FF, FS, GS, RS, NEL, LINE SEPARATOR, PARAGRAPH SEPARATOR
(CR LF is treated as a single break by `splitlinesL`). -/
def isLineBreak (c : Char) : Bool :=
  decide (c.toNat = 10 ∨ c.toNat = 13 ∨ c.toNat = 11 ∨ c.toNat = 12 ∨
    (28 ≤ c.toNat ∧ c.toNat ≤ 30) ∨ c.toNat = 133 ∨
    c.toNat = 8232 ∨ c.toNat = 8233)

/-- Python `str.splitlines()`: split at line breaks, treating CR LF as
one break, discarding the terminators, and producing no trailing empty
line. -/
def splitlinesL : List Char → List (List Char)
  | [] => []
  | '\r' :: '\n' :: rest => [] :: splitlinesL rest
  | c :: rest =>
    if isLineBreak c then [] :: splitlinesL rest
    else
      match splitlinesL rest with
      | [] => [[c]]
      | w :: ws => (c :: w) :: ws

/-- Python `str.split('\n')`: split at every LF, keeping empty pieces
(`"".split('\n') == ['']`). -/
def splitNlL : List Char → List (List Char)
  | [] => [[]]
  | '\n' :: rest => [] :: splitNlL rest
  | c :: rest =>
    match splitNlL rest with
    | [] => [[c]]
    | w :: ws => (c :: w) :: ws

/-- Find the first occurrence of `pat` (assumed nonempty) in `l`; return
the part before it and the part after it. -/
def splitAtFirst (pat : List Char) : List Char → Option (List Char × List Char)
  | [] => none
  | c :: rest =>
    if (c :: rest).take pat.length = pat then some ([], (c :: rest).drop pat.length)
    else
      match splitAtFirst pat rest with
      | some (pre, post) => some (c :: pre, post)
      | none => none

/-- Fuel-indexed worker for `splitOnL`.  Each `some` step removes at
least `pat.length ≥ 1` characters, so `l.length + 1` fuel suffices. -/
def splitOnAux (pat : List Char) : Nat → List Char → List (List Char)
  | 0, l => [l]
  | fuel + 1, l =>
    match splitAtFirst pat l with
    | none => [l]
    | some (pre, post) => pre :: splitOnAux pat fuel post

/-- Python `str.split(sep)` with a nonempty separator: non-overlapping
left-to-right splitting, keeping empty pieces. -/
def splitOnL (pat l : List Char) : List (List Char) := splitOnAux pat (l.length + 1) l

/-- Python `str.replace(pat, '')`: delete every (non-overlapping,
leftmost-first) occurrence of `pat`. -/
def eraseAllL (pat l : List Char) : List Char := (splitOnL pat l).foldr (· ++ ·) []

/-- Does `pat` occur in `l` (Python's `pat in l`)? -/
def containsL (pat l : List Char) : Bool := (splitAtFirst pat l).isSome

/-- Index of the first occurrence of `pat` in `l` (Python `str.find`),
or `none` (Python `-1`). -/
def findIdx (pat l : List Char) : Option Nat := (splitAtFirst pat l).map (·.1.length)

/-- The match of `\s*(C+)` (for a character class `C = keep`) against a
prefix of `l`, returning the captured group.  `\s*` is greedy: first the
maximal whitespace run `W` is consumed; if anything follows, the group
is the maximal run of `keep`-characters from there (for the classes
used here — `[^\n\r]`, `[^\n]`, `\S` — every non-whitespace character
is a `keep`-character, so the group is nonempty).  If nothing follows
`W`, the engine backtracks: the group becomes the last `keep`-character
inside `W` itself, if any. -/
def matchValueAfter (keep : Char → Bool) (l : List Char) : Option (List Char) :=
  let W := l.takeWhile isSpace
  let R := l.dropWhile isSpace
  match R with
  | _ :: _ => some (R.takeWhile keep)
  | [] =>
    match (W.filter keep).getLast? with
    | some c => some [c]
    | none => none

/-- `re.search(label + r'\s*(C+)', text)` for a literal `label` and
character class `C = keep`: try every start position left to right; at a
position where `label` matches, the value part must also match, else the
search continues at the next character. -/
def findLabelValue (keep : Char → Bool) (label : List Char) :
    List Char → Option (List Char)
  | [] => none
  | c :: rest =>
    if (c :: rest).take label.length = label then
      match matchValueAfter keep ((c :: rest).drop label.length) with
      | some g => some g
      | none => findLabelValue keep label rest
    else findLabelValue keep label rest

/-- The character class `[^\n\r]` of `re.search(r'Label:\s*([^\n\r]+)')`. -/
def keepNoCrLf (c : Char) : Bool := c ≠ '\n' ∧ c ≠ '\r'

/-- The character class `[^\n]` of `re.search(r'Label:\s*([^\n]+)')`. -/
def keepNoLf (c : Char) : Bool := c ≠ '\n'

/-- The character class `\S` of `re.search(r'Label:\s*(\S+)')`. -/
def keepNonWs (c : Char) : Bool := ¬ isSpace c

end Py

/-- The block start marker of the export format. -/
def procStartMarker : List Char := "=== STORED PROCEDURE START ===".data

/-- The block end marker of the export format. -/
def procEndMarker : List Char := "=== STORED PROCEDURE END ===".data

/-- The definition start marker of the export format. -/
def defStartMarker : List Char := "--- DEFINITION START ---".data

/-- The definition end marker of the export format. -/
def defEndMarker : List Char := "--- DEFINITION END ---".data

/-- Fuel-indexed worker for `extractBlocks`.  Each iteration consumes at
least the two markers, so `l.length + 1` fuel suffices. -/
def extractBlocksAux : Nat → List Char → List (List Char)
  | 0, _ => []
  | fuel + 1, l =>
    match Py.splitAtFirst procStartMarker l with
    | none => []
    | some (_, afterStart) =>
      match Py.splitAtFirst procEndMarker afterStart with
      | none => []
      | some (blk, afterEnd) => blk :: extractBlocksAux fuel afterEnd

/-- `re.finditer(r'=== STORED PROCEDURE START ===(.*?)=== STORED PROCEDURE END ===',
content, re.DOTALL)`: the non-overlapping block bodies, scanned left to
right, each extending from a start marker to the nearest following end
marker.  (If the first start marker has no end marker after it, no later
one has either, so the scan stops.) -/
def extractBlocks (l : List Char) : List (List Char) :=
  extractBlocksAux (l.length + 1) l

/-- Insert into an association list the way assignment to a Python dict
key does: overwrite in place if the key is present, else append. -/
def insertAL {α : Type} (k : String) (v : α) : List (String × α) → List (String × α)
  | [] => [(k, v)]
  | (k', v') :: rest =>
    if k' = k then (k, v) :: rest else (k', v') :: insertAL k v rest

/-- Lookup in an association list (Python dict indexing / `.get`). -/
def lookupAL {α : Type} (k : String) : List (String × α) → Option α
  | [] => none
  | (k', v) :: rest => if k' = k then some v else lookupAL k rest

/-- The keys of an association list. -/
def keysAL {α : Type} (m : List (String × α)) : List String := m.map (·.1)

namespace Difflib

/-!
Model of `difflib.SequenceMatcher(None, a, b)` and
`difflib.unified_diff` from the Python standard library, as invoked by
the comparison scripts (`isjunk=None`, so the junk set is empty; the
autojunk "popular element" heuristic applies when `len(b) >= 200`).
Sequences are lists of lines (`String`).
-/

/-- `b2j` with autojunk: maps a line to the (increasing) list of its
indices in `b`; when `len(b) >= 200`, lines occurring more than
`len(b) // 100 + 1` times are "popular" and removed from the map. -/
def b2j (b : List String) (x : String) : List Nat :=
  let base := (List.range b.length).filter (fun j => b.getD j "" = x)
  if 200 ≤ b.length ∧ b.length / 100 + 1 < base.length then [] else base

/-- One pass of the inner loop of `find_longest_match` for a fixed `i`:
fold over the in-range indices `j` of `a[i]` in `b`, building the new
run-length table and updating the best match.  `j2len j` is the length
of the longest run ending at `(i-1, j)`. -/
def flmStep (j2len : Nat → Nat) (i : Nat) (js : List Nat) :
    (Nat → Nat) × (Nat × Nat × Nat) → (Nat → Nat) × (Nat × Nat × Nat) :=
  fun st =>
    js.foldl
      (fun st2 j =>
        let newj2len := st2.1
        let best := st2.2
        let k := (if j = 0 then 0 else j2len (j - 1)) + 1
        let newj2len' := fun j' => if j' = j then k else newj2len j'
        let best' := if best.2.2 < k then (i + 1 - k, j + 1 - k, k) else best
        (newj2len', best'))
      st

/-- The dynamic-programming phase of `find_longest_match`: scan
`i = alo, …, ahi-1`, maintaining the run-length table and the best
(earliest, strictly-improving) match. -/
def flmScan (bj : String → List Nat) (a : List String) (alo ahi blo bhi : Nat) :
    Nat × Nat × Nat :=
  ((List.range' alo (ahi - alo)).foldl
      (fun st i =>
        let js := (bj (a.getD i "")).filter (fun j => blo ≤ j ∧ j < bhi)
        let st' := flmStep st.1 i js ((fun _ => 0), st.2)
        st')
      ((fun _ => 0), (alo, blo, 0))).2

/-- The backward extension loop of `find_longest_match` (empty junk
set): count how many consecutive equal characters precede `(i, j)`
staying within `(alo, blo)`.  Structural recursion on `i`. -/
def extendBack (a b : List String) (alo blo : Nat) : Nat → Nat → Nat
  | 0, _ => 0
  | _ + 1, 0 => 0
  | i + 1, j + 1 =>
    if alo ≤ i ∧ blo ≤ j ∧ a.getD i "" = b.getD j "" then
      extendBack a b alo blo i j + 1
    else 0

/-- The forward extension loop of `find_longest_match` (empty junk
set): count consecutive equal characters from `(i, j)` on, staying
below `(ahi, bhi)`.  The fuel starts at `ahi`, an upper bound on the
number of iterations. -/
def extendFwd (a b : List String) (ahi bhi : Nat) : Nat → Nat → Nat → Nat
  | 0, _, _ => 0
  | fuel + 1, i, j =>
    if i < ahi ∧ j < bhi ∧ a.getD i "" = b.getD j "" then
      extendFwd a b ahi bhi fuel (i + 1) (j + 1) + 1
    else 0

/-- `SequenceMatcher.find_longest_match(alo, ahi, blo, bhi)` with an
empty junk set: the DP scan followed by the backward and forward
extensions. -/
def find_longest_match (bj : String → List Nat) (a b : List String)
    (alo ahi blo bhi : Nat) : Nat × Nat × Nat :=
  let m := flmScan bj a alo ahi blo bhi
  let e := extendBack a b alo blo m.1 m.2.1
  let bi := m.1 - e
  let bbj := m.2.1 - e
  let bs := m.2.2 + e
  let bs' := bs + extendFwd a b ahi bhi ahi (bi + bs) (bbj + bs)
  (bi, bbj, bs')

/-- Recursive phase of `get_matching_blocks`: find the longest match,
then recurse on the region before and the region after it.  The result
is sorted by construction.  The recursion depth is bounded by the sum
of the interval lengths, so fuel `la + lb + 1` suffices. -/
def matchingBlocksAux (bj : String → List Nat) (a b : List String) :
    Nat → Nat → Nat → Nat → Nat → List (Nat × Nat × Nat)
  | 0, _, _, _, _ => []
  | fuel + 1, alo, ahi, blo, bhi =>
    let m := find_longest_match bj a b alo ahi blo bhi
    if m.2.2 = 0 then []
    else
      matchingBlocksAux bj a b fuel alo m.1 blo m.2.1 ++
        m :: matchingBlocksAux bj a b fuel (m.1 + m.2.2) ahi (m.2.1 + m.2.2) bhi

/-- The merging pass at the end of `get_matching_blocks`: adjacent
blocks are combined; the seed `(0, 0, 0)` is dropped if nothing merges
into it. -/
def mergeAdjacent : Nat × Nat × Nat → List (Nat × Nat × Nat) → List (Nat × Nat × Nat)
  | (i1, j1, k1), [] => if k1 ≠ 0 then [(i1, j1, k1)] else []
  | (i1, j1, k1), (i2, j2, k2) :: rest =>
    if i1 + k1 = i2 ∧ j1 + k1 = j2 then mergeAdjacent (i1, j1, k1 + k2) rest
    else
      (if k1 ≠ 0 then [(i1, j1, k1)] else []) ++ mergeAdjacent (i2, j2, k2) rest

/-- `SequenceMatcher.get_matching_blocks()`: the sorted maximal-match
decomposition, adjacent blocks merged, with the terminal sentinel
`(la, lb, 0)`. -/
def get_matching_blocks (a b : List String) : List (Nat × Nat × Nat) :=
  mergeAdjacent (0, 0, 0)
      (matchingBlocksAux (b2j b) a b (a.length + b.length + 1) 0 a.length 0 b.length) ++
    [(a.length, b.length, 0)]

/-- An opcode: a tag (`"replace"`, `"delete"`, `"insert"`, `"equal"`)
with the `a`-range and `b`-range it covers. -/
abbrev Op : Type := String × Nat × Nat × Nat × Nat

/-- The loop body of `SequenceMatcher.get_opcodes()`. -/
def opcodesGo : Nat → Nat → List (Nat × Nat × Nat) → List Op
  | _, _, [] => []
  | i, j, (ai, bj', size) :: rest =>
    (if i < ai ∧ j < bj' then [("replace", i, ai, j, bj')]
     else if i < ai then [("delete", i, ai, j, bj')]
     else if j < bj' then [("insert", i, ai, j, bj')]
     else []) ++
      (if size ≠ 0 then [("equal", ai, ai + size, bj', bj' + size)] else []) ++
      opcodesGo (ai + size) (bj' + size) rest

/-- `SequenceMatcher.get_opcodes()`. -/
def get_opcodes (a b : List String) : List Op :=
  opcodesGo 0 0 (get_matching_blocks a b)

/-- Truncate a leading `equal` opcode to at most `n` context lines. -/
def clipHead (n : Nat) : List Op → List Op
  | (tag, i1, i2, j1, j2) :: rest =>
    if tag = "equal" then (tag, max i1 (i2 - n), i2, max j1 (j2 - n), j2) :: rest
    else (tag, i1, i2, j1, j2) :: rest
  | [] => []

/-- Truncate a trailing `equal` opcode to at most `n` context lines. -/
def clipLast (n : Nat) (l : List Op) : List Op :=
  match l.reverse with
  | (tag, i1, i2, j1, j2) :: rest =>
    if tag = "equal" then ((tag, i1, min i2 (i1 + n), j1, min j2 (j1 + n)) :: rest).reverse
    else l
  | [] => []

/-- The grouping loop of `get_grouped_opcodes`: split at `equal`
opcodes spanning more than `2n` lines, keeping `n` context lines on
each side; a final group consisting of a single `equal` opcode is
dropped. -/
def groupGo (n : Nat) : List Op → List Op → List (List Op)
  | group, [] =>
    if group ≠ [] ∧ ¬(group.length = 1 ∧ (group.headD default).1 = "equal") then [group]
    else []
  | group, (tag, i1, i2, j1, j2) :: rest =>
    if tag = "equal" ∧ 2 * n < i2 - i1 then
      (group ++ [(tag, i1, min i2 (i1 + n), j1, min j2 (j1 + n))]) ::
        groupGo n [(tag, max i1 (i2 - n), i2, max j1 (j2 - n), j2)] rest
    else groupGo n (group ++ [(tag, i1, i2, j1, j2)]) rest

/-- `SequenceMatcher.get_grouped_opcodes(n)`. -/
def get_grouped_opcodes (a b : List String) (n : Nat) : List (List Op) :=
  let codes := get_opcodes a b
  let codes := if codes = [] then [("equal", 0, 1, 0, 1)] else codes
  groupGo n [] (clipLast n (clipHead n codes))

/-- `difflib._format_range_unified(start, stop)`. -/
def formatRange (start stop : Nat) : String :=
  let length := stop - start
  if length = 1 then toString (start + 1)
  else toString (if length = 0 then start else start + 1) ++ "," ++ toString length

/-- Render one opcode of a group as diff lines. -/
def renderOp (a b : List String) (op : Op) : List String :=
  let lines := fun (src : List String) (lo hi : Nat) => (src.drop lo).take (hi - lo)
  if op.1 = "equal" then (lines a op.2.1 op.2.2.1).map (" " ++ ·)
  else
    (if op.1 = "replace" ∨ op.1 = "delete" then
        (lines a op.2.1 op.2.2.1).map ("-" ++ ·)
      else []) ++
      (if op.1 = "replace" ∨ op.1 = "insert" then
        (lines b op.2.2.2.1 op.2.2.2.2).map ("+" ++ ·)
      else [])

/-- Render one group as a hunk: the `@@` header followed by the lines. -/
def renderGroup (a b : List String) (lineterm : String) (g : List Op) : List String :=
  let first := g.headD default
  let last := g.getLastD default
  ("@@ -" ++ formatRange first.2.1 last.2.2.1 ++ " +" ++
      formatRange first.2.2.2.1 last.2.2.2.2 ++ " @@" ++ lineterm) ::
    g.flatMap (renderOp a b)

/-- `list(difflib.unified_diff(a, b, fromfile, tofile, lineterm=lineterm, n=n))`
(no file dates): the two header lines (emitted only when there is at
least one group) followed by the rendered hunks. -/
def unified_diff (a b : List String) (fromfile tofile : String) (n : Nat)
    (lineterm : String) : List String :=
  match get_grouped_opcodes a b n with
  | [] => []
  | groups =>
    ("--- " ++ fromfile ++ lineterm) :: ("+++ " ++ tofile ++ lineterm) ::
      groups.flatMap (renderGroup a b lineterm)

end Difflib

namespace CSP

/-!
Embedding of `compare_stored_procedures.py`.  File I/O (reading the
export files, writing the reports) is external; the functions here take
the file *content* as a `String`.  The MD5 hex digest
(`hashlib.md5(...).hexdigest()`) is modelled by an arbitrary function
parameter `h : String → String`.
-/

/-- The `StoredProcedure` class: metadata plus raw definition text. -/
structure StoredProcedure where
  database : String
  schema : String
  name : String
  definition : String
  create_date : String
  modify_date : String
deriving DecidableEq

/-- `self.full_name = f"{database}.{schema}.{name}"`. -/
def StoredProcedure.full_name (p : StoredProcedure) : String :=
  p.database ++ "." ++ p.schema ++ "." ++ p.name

/-- `StoredProcedure.get_normalized_definition`: collapse whitespace
runs to single spaces, then remove `--` line comments, then remove
`/* */` block comments, then lower-case and strip — in that order, as
the code does. -/
def StoredProcedure.get_normalized_definition (p : StoredProcedure) : String :=
  pyStrip (pyLower ⟨Py.subBlockL (Py.subLineL (Py.collapseRunsL p.definition.data))⟩)

/-- `StoredProcedure.get_definition_hash`: the digest `h` of the
normalized definition. -/
def StoredProcedure.get_definition_hash (h : String → String)
    (p : StoredProcedure) : String :=
  h p.get_normalized_definition

/-- `StoredProcedureComparer._extract_value(content, label)`:
`re.search(label + r'\s*([^\n\r]+)', content)`, returning the stripped
group or `''`. -/
def extract_value (content : String) (label : String) : String :=
  match Py.findLabelValue Py.keepNoCrLf label.data content.data with
  | some g => ⟨Py.stripL g⟩
  | none => ""

/-- Definition extraction inside one block:
`re.search(r'--- DEFINITION START ---(.*?)--- DEFINITION END ---', ..., re.DOTALL)`,
with the group stripped, or `''` when there is no match. -/
def extractDefinition (blk : List Char) : String :=
  match Py.splitAtFirst defStartMarker blk with
  | none => ""
  | some (_, afterStart) =>
    match Py.splitAtFirst defEndMarker afterStart with
    | none => ""
    | some (inner, _) => ⟨Py.stripL inner⟩

/-- Processing of one block body inside `parse_file`: extract the five
labelled fields and the definition; the block is accepted only when
`database`, `schema`, `name` and `definition` are all non-empty
(Python truthiness of the strings). -/
def blockRecord (blk : List Char) : Option (String × StoredProcedure) :=
  let database := extract_value ⟨blk⟩ "Database:"
  let schema := extract_value ⟨blk⟩ "Schema:"
  let name := extract_value ⟨blk⟩ "Name:"
  let create_date := extract_value ⟨blk⟩ "CreateDate:"
  let modify_date := extract_value ⟨blk⟩ "ModifyDate:"
  let definition := extractDefinition blk
  if database ≠ "" ∧ schema ≠ "" ∧ name ≠ "" ∧ definition ≠ "" then
    let p : StoredProcedure := ⟨database, schema, name, definition, create_date, modify_date⟩
    some (p.full_name, p)
  else none

/-- The accepted blocks of a file content, in input order. -/
def acceptedRecords (content : String) : List (String × StoredProcedure) :=
  (extractBlocks content.data).filterMap blockRecord

/-- `StoredProcedureComparer.parse_file`: iterate over the blocks and
assign each accepted record into the dict under its full name. -/
def parse_file (content : String) : List (String × StoredProcedure) :=
  (acceptedRecords content).foldl (fun acc kv => insertAL kv.1 kv.2 acc) []

/-- The result triple of `get_comparison_results`. -/
structure ComparisonResults where
  only_in_source : List String
  only_in_target : List String
  different_procs : List (String × List String)
deriving DecidableEq

/-- `StoredProcedureComparer.get_comparison_results` with digest `h`:
set differences on the full-name keys; for each common key, compare the
definition hashes and, when they differ, record
`difflib.unified_diff(source_lines, target_lines, fromfile='Source',
tofile='Target', lineterm='')` (library-default three context lines)
over the raw definitions. -/
def get_comparison_results (h : String → String)
    (src tgt : List (String × StoredProcedure)) : ComparisonResults where
  only_in_source := (keysAL src).filter (fun k => ¬ k ∈ keysAL tgt)
  only_in_target := (keysAL tgt).filter (fun k => ¬ k ∈ keysAL src)
  different_procs :=
    ((keysAL src).filter (fun k => k ∈ keysAL tgt)).filterMap fun k =>
      match lookupAL k src, lookupAL k tgt with
      | some sp, some tp =>
        if sp.get_definition_hash h ≠ tp.get_definition_hash h then
          some (k, Difflib.unified_diff
            ((Py.splitlinesL sp.definition.data).map String.mk)
            ((Py.splitlinesL tp.definition.data).map String.mk)
            "Source" "Target" 3 "")
        else none
      | _, _ => none

/-- The hash-free variant of `get_comparison_results`, following the
specification's words: a common key is changed exactly when the
*normalized definitions themselves* differ (no digest involved).  Used
to state the refinement between the hash-based detector and direct
normalized-string comparison. -/
def get_comparison_results_direct
    (src tgt : List (String × StoredProcedure)) : ComparisonResults where
  only_in_source := (keysAL src).filter (fun k => ¬ k ∈ keysAL tgt)
  only_in_target := (keysAL tgt).filter (fun k => ¬ k ∈ keysAL src)
  different_procs :=
    ((keysAL src).filter (fun k => k ∈ keysAL tgt)).filterMap fun k =>
      match lookupAL k src, lookupAL k tgt with
      | some sp, some tp =>
        if sp.get_normalized_definition ≠ tp.get_normalized_definition then
          some (k, Difflib.unified_diff
            ((Py.splitlinesL sp.definition.data).map String.mk)
            ((Py.splitlinesL tp.definition.data).map String.mk)
            "Source" "Target" 3 "")
        else none
      | _, _ => none

end CSP

namespace Sproc

/-!
Embedding of `sproc_compare.py`.  `parse_stored_procedures` maps
qualified names to raw definition strings; encoding fallback on file
read is external I/O and out of scope.
-/

/-- One block of `parse_stored_procedures`: the three metadata searches
must succeed as *matches* (`if database and schema and name and
definition:` tests the match objects), and the definition span must
match; the stored name segments and definition are the stripped
groups. -/
def blockEntry (blk : List Char) : Option (String × String) :=
  let database := Py.findLabelValue Py.keepNoCrLf "Database:".data blk
  let schema := Py.findLabelValue Py.keepNoCrLf "Schema:".data blk
  let name := Py.findLabelValue Py.keepNoCrLf "Name:".data blk
  let definition :=
    match Py.splitAtFirst defStartMarker blk with
    | none => none
    | some (_, afterStart) =>
      match Py.splitAtFirst defEndMarker afterStart with
      | none => none
      | some (inner, _) => some inner
  match database, schema, name, definition with
  | some db, some sc, some nm, some df =>
    some (String.mk (Py.stripL db) ++ "." ++ String.mk (Py.stripL sc) ++ "." ++
        String.mk (Py.stripL nm),
      String.mk (Py.stripL df))
  | _, _, _, _ => none

/-- The accepted entries of a file content, in input order. -/
def acceptedEntries (content : String) : List (String × String) :=
  (extractBlocks content.data).filterMap blockEntry

/-- `parse_stored_procedures`: build the dict, later blocks
overwriting earlier ones with the same qualified name. -/
def parse_stored_procedures (content : String) : List (String × String) :=
  (acceptedEntries content).foldl (fun acc kv => insertAL kv.1 kv.2 acc) []

/-- `normalize_for_comparison`: remove `--` line comments, remove
`/* */` block comments, collapse whitespace via
`' '.join(text.split())`, lower-case — in that order, as the code
does. -/
def normalize_for_comparison (text : String) : String :=
  pyLower (pySplitJoin ⟨Py.subBlockL (Py.subLineL text.data)⟩)

/-- The comparison phase of `compare_procedures` (the report-writing
that follows is external I/O): set differences on the keys, and for
each common key a unified diff (three context lines, labels
`Source`/`Target`) of the raw definitions whenever the normalized
definitions differ. -/
def compare_procedures (src tgt : List (String × String)) : CSP.ComparisonResults where
  only_in_source := (keysAL src).filter (fun k => ¬ k ∈ keysAL tgt)
  only_in_target := (keysAL tgt).filter (fun k => ¬ k ∈ keysAL src)
  different_procs :=
    ((keysAL src).filter (fun k => k ∈ keysAL tgt)).filterMap fun k =>
      match lookupAL k src, lookupAL k tgt with
      | some ds, some dt =>
        if normalize_for_comparison ds ≠ normalize_for_comparison dt then
          some (k, Difflib.unified_diff
            ((Py.splitlinesL ds.data).map String.mk)
            ((Py.splitlinesL dt.data).map String.mk)
            "Source" "Target" 3 "")
        else none
      | _, _ => none

end Sproc

namespace Simple

/-!
Embedding of `simple_compare.py`.  `extract_procedures` is a
line-oriented state machine; a metadata-looking line outside any block
makes the Python code index into `None` and raise, which is modelled by
the `Option` result.
-/

/-- The `current_proc` dict: which of the three fields have been set. -/
structure ProcFields where
  database : Option String
  schema : Option String
  name : Option String
deriving DecidableEq

/-- The loop state of `extract_procedures`. -/
structure ExtractState where
  procedures : List (String × String)
  current_proc : Option ProcFields
  current_def : List String
  in_definition : Bool
deriving DecidableEq

/-- One iteration of the `for line in content.split('\n')` loop.  The
line is stripped first; then the `if`/`elif` chain is applied in source
order (so a definition line that begins with `Database:`, `Schema:` or
`Name:` is diverted to the metadata branches and never collected).
Returns `none` where Python would raise (`current_proc[...]` with
`current_proc is None`). -/
def stepLine (st : ExtractState) (rawLine : String) : Option ExtractState :=
  let line := pyStrip rawLine
  if line = "=== STORED PROCEDURE START ===" then
    some { st with current_proc := some ⟨none, none, none⟩, current_def := [],
                   in_definition := false }
  else if (line.data.take 9 = "Database:".data : Bool) then
    match st.current_proc with
    | none => none
    | some r =>
      let r' := { r with database := some (pyStrip ⟨Py.eraseAllL "Database:".data line.data⟩) }
      some { st with current_proc := some r' }
  else if (line.data.take 7 = "Schema:".data : Bool) then
    match st.current_proc with
    | none => none
    | some r =>
      let r' := { r with schema := some (pyStrip ⟨Py.eraseAllL "Schema:".data line.data⟩) }
      some { st with current_proc := some r' }
  else if (line.data.take 5 = "Name:".data : Bool) then
    match st.current_proc with
    | none => none
    | some r =>
      let r' := { r with name := some (pyStrip ⟨Py.eraseAllL "Name:".data line.data⟩) }
      some { st with current_proc := some r' }
  else if line = "--- DEFINITION START ---" then
    some { st with in_definition := true }
  else if line = "--- DEFINITION END ---" then
    some { st with in_definition := false }
  else if line = "=== STORED PROCEDURE END ===" then
    let st' :=
      match st.current_proc with
      | some r =>
        -- `if current_proc and 'name' in current_proc`: a dict with the
        -- name key set is nonempty, hence truthy.
        if r.name.isSome then
          let full_name := r.database.getD "Unknown" ++ "." ++ r.schema.getD "Unknown" ++
            "." ++ r.name.getD "Unknown"
          { st with procedures :=
              insertAL full_name (String.intercalate "\n" st.current_def) st.procedures }
        else st
      | none => st
    some { st' with current_proc := none, current_def := [] }
  else if st.in_definition then
    some { st with current_def := st.current_def ++ [line] }
  else some st

/-- `extract_procedures`, on the file content: fold the line machine
over `content.split('\n')`; `none` models an uncaught exception. -/
def extract_procedures (content : String) : Option (List (String × String)) :=
  ((Py.splitNlL content.data).map String.mk).foldlM stepLine ⟨[], none, [], false⟩
    |>.map (·.procedures)

/-- `normalize_sql`: remove `--` line comments (`re.MULTILINE` form),
remove `/* */` block comments, collapse whitespace, lower-case and
strip. -/
def normalize_sql (sql_text : String) : String :=
  pyStrip (pyLower (pySplitJoin ⟨Py.subBlockL (Py.subLineL sql_text.data)⟩))

end Simple

namespace Latest

/-!
Embedding of `compare_storeprocs_latest.py` ("Fixed for case
sensitivity").
-/

/-- The per-procedure dict stored by the parser: original-case display
name and raw definition. -/
structure LatestProc where
  full_name : String
  definition : String
deriving DecidableEq

/-- Processing of one part produced by
`content.split('=== STORED PROCEDURE START ===')`: the part must
contain the end marker; metadata is matched with
`re.search(r'Label:\s*(\S+)', section)` (single tokens, no strip);
the definition is the slice between the *independently located* first
occurrences of the definition markers (`str.find`), stripped; the
mapping key is the lower-cased qualified name while the stored
`full_name` keeps the original casing. -/
def partEntry (part : List Char) : Option (String × LatestProc) :=
  match Py.splitAtFirst procEndMarker part with
  | none => none
  | some (proc_section, _) =>
    let database := Py.findLabelValue Py.keepNonWs "Database:".data proc_section
    let schema := Py.findLabelValue Py.keepNonWs "Schema:".data proc_section
    let name := Py.findLabelValue Py.keepNonWs "Name:".data proc_section
    let def_start := Py.findIdx defStartMarker proc_section
    let def_end := Py.findIdx defEndMarker proc_section
    match database, schema, name, def_start, def_end with
    | some db, some sc, some nm, some i, some j =>
      let definition : String :=
        ⟨Py.stripL ((proc_section.drop (i + defStartMarker.length)).take
          (j - (i + defStartMarker.length)))⟩
      let full_name := String.mk db ++ "." ++ String.mk sc ++ "." ++ String.mk nm
      some (pyLower full_name, ⟨full_name, definition⟩)
    | _, _, _, _, _ => none

/-- `parse_stored_procedures`: split on the start marker, skip the
leading part, process the rest in order into the dict. -/
def parse_stored_procedures (content : String) : List (String × LatestProc) :=
  ((Py.splitOnL procStartMarker content.data).drop 1).foldl
    (fun acc part =>
      match partEntry part with
      | some (k, v) => insertAL k v acc
      | none => acc)
    []

/-- `normalize_for_comparison` (same text as in `sproc_compare.py`):
line comments, block comments, whitespace collapse, lower-case. -/
def normalize_for_comparison (text : String) : String :=
  Sproc.normalize_for_comparison text

/-- The comparison phase of `main` (lines 96–110): key-set differences
on the lower-cased keys, and the common keys whose normalized
definitions differ. -/
structure MainResults where
  missing_in_target : List String
  extra_in_target : List String
  different_code : List String
deriving DecidableEq

/-- The computation of `missing_in_target`, `extra_in_target` and
`different_code` in `main`. -/
def main_compare (src tgt : List (String × LatestProc)) : MainResults where
  missing_in_target := (keysAL src).filter (fun k => ¬ k ∈ keysAL tgt)
  extra_in_target := (keysAL tgt).filter (fun k => ¬ k ∈ keysAL src)
  different_code :=
    ((keysAL src).filter (fun k => k ∈ keysAL tgt)).filter fun k =>
      match lookupAL k src, lookupAL k tgt with
      | some s, some t =>
        normalize_for_comparison s.definition ≠ normalize_for_comparison t.definition
      | _, _ => false

end Latest

namespace Fixed

/-!
Embedding of `fixed_compare.py`.
-/

/-- The per-procedure dict: raw and normalized definition. -/
structure FixedProc where
  definition : String
  normalized : String
deriving DecidableEq

/-- Processing of one regex block of `parse_procedures_from_file`:
metadata matched with `re.search(r'Label:\s*([^\n]+)', match)`, the
definition span with the nested DOTALL regex; acceptance tests the
four *match objects*; stored values are the stripped groups, plus
`' '.join(definition.lower().split())` as the normalized form. -/
def blockEntry (blk : List Char) : Option (String × FixedProc) :=
  let db := Py.findLabelValue Py.keepNoLf "Database:".data blk
  let schema := Py.findLabelValue Py.keepNoLf "Schema:".data blk
  let name := Py.findLabelValue Py.keepNoLf "Name:".data blk
  let defInner :=
    match Py.splitAtFirst defStartMarker blk with
    | none => none
    | some (_, afterStart) =>
      match Py.splitAtFirst defEndMarker afterStart with
      | none => none
      | some (inner, _) => some inner
  match db, schema, name, defInner with
  | some d, some s, some n, some inner =>
    let definition : String := ⟨Py.stripL inner⟩
    let key := String.mk (Py.stripL d) ++ "." ++ String.mk (Py.stripL s) ++ "." ++
      String.mk (Py.stripL n)
    some (key, ⟨definition, pySplitJoin (pyLower definition)⟩)
  | _, _, _, _ => none

/-- `parse_procedures_from_file`, on the file content. -/
def parse_procedures_from_file (content : String) : List (String × FixedProc) :=
  ((extractBlocks content.data).filterMap blockEntry).foldl
    (fun acc kv => insertAL kv.1 kv.2 acc) []

end Fixed

namespace SpecSide

/-!
Definitions that follow the *specification's words* rather than the
code, for refinement comparisons.
-/

/-- Normalization as the specification words it, in the specification's
order: (1) remove single-line comments, (2) remove block comments up to
the nearest close marker, (3) collapse every whitespace run (including
newlines) to a single space and trim leading/trailing whitespace,
(4) lower-case the whole result. -/
def normalizeSpec (text : String) : String :=
  pyLower ⟨Py.stripL (Py.collapseRunsL (Py.subBlockL (Py.subLineL text.data)))⟩

/-- The definition-trimming the specification (and claim C7) describes:
remove *leading and trailing blank lines only*, preserving all internal
line formatting, including the indentation of the first and last
non-blank lines. -/
def trimBlankLines (s : String) : String :=
  let blank := fun (l : List Char) => l.all Py.isSpace
  let ls := Py.splitNlL s.data
  let ls := ((ls.dropWhile blank).reverse.dropWhile blank).reverse
  ⟨List.intercalate ['\n'] ls⟩

/-- The bucket invariant of the specification: the three output buckets
are pairwise disjoint, and together with the unchanged common keys they
cover exactly the union of the input key sets. -/
def PartitionHolds (srcKeys tgtKeys onlyS onlyT changed : List String) : Prop :=
  ∀ k : String,
    (¬(k ∈ onlyS ∧ k ∈ onlyT) ∧ ¬(k ∈ onlyS ∧ k ∈ changed) ∧
      ¬(k ∈ onlyT ∧ k ∈ changed)) ∧
    ((k ∈ srcKeys ∨ k ∈ tgtKeys) ↔
      (k ∈ onlyS ∨ k ∈ onlyT ∨ k ∈ changed ∨
        (k ∈ srcKeys ∧ k ∈ tgtKeys ∧ k ∉ changed)))

end SpecSide

/-- Marker put in front of a whitespace-collapsed list when it begins
with whitespace and still contains a word: the single space that
`re.sub(r'\s+', ' ', ...)` leaves at the front and `' '.join(split())`
does not.  Used to relate the two whitespace-collapsing idioms. -/
def leadMark (l : List Char) : List Char :=
  match l with
  | [] => []
  | c :: _ => if Py.isSpace c ∧ Py.wordsL l ≠ [] then [' '] else []

/-- A source export with one procedure `DB.dbo.GetUser` (original
casing). -/
def c2SourceExport : String :=
  "=== STORED PROCEDURE START ===\nDatabase: DB\nSchema: dbo\nName: GetUser\n--- DEFINITION START ---\nSELECT 1\n--- DEFINITION END ---\n=== STORED PROCEDURE END ===\n"

/-- A target export with the same procedure under different casing
`db.DBO.getuser` and an identical definition. -/
def c2TargetExport : String :=
  "=== STORED PROCEDURE START ===\nDatabase: db\nSchema: DBO\nName: getuser\n--- DEFINITION START ---\nSELECT 1\n--- DEFINITION END ---\n=== STORED PROCEDURE END ===\n"

/-- An export whose single block carries only a `Name:` line (no
`Database:`, no `Schema:`). -/
def c4NameOnlyExport : String :=
  "=== STORED PROCEDURE START ===\nName: Foo\n--- DEFINITION START ---\nSELECT 1\n--- DEFINITION END ---\n=== STORED PROCEDURE END ===\n"

/-- An export with a well-formed block, then a malformed block (no
`Name:` anywhere), then another well-formed block. -/
def c4MixedExport : String :=
  "=== STORED PROCEDURE START ===\nDatabase: DB\nSchema: dbo\nName: First\n--- DEFINITION START ---\nSELECT 1\n--- DEFINITION END ---\n=== STORED PROCEDURE END ===\n=== STORED PROCEDURE START ===\nDatabase: DB\nSchema: dbo\n--- DEFINITION START ---\nSELECT 0\n--- DEFINITION END ---\n=== STORED PROCEDURE END ===\n=== STORED PROCEDURE START ===\nDatabase: DB\nSchema: dbo\nName: Second\n--- DEFINITION START ---\nSELECT 2\n--- DEFINITION END ---\n=== STORED PROCEDURE END ===\n"

/-- An export whose definition body has an indented first line and a
more deeply indented second line. -/
def c7Export : String :=
  "=== STORED PROCEDURE START ===\nDatabase: D\nSchema: s\nName: P\n--- DEFINITION START ---\n    CREATE X\n        Y\n--- DEFINITION END ---\n=== STORED PROCEDURE END ===\n"

/-- The inner text between the definition markers of `c7Export`. -/
def c7Inner : String := "\n    CREATE X\n        Y\n"

/-- An export whose block has `Database:` and `Schema:` metadata lines
but *no* `Name:` metadata line; the text `Name:` occurs only inside the
definition body, in a comment. -/
def c10Export : String :=
  "=== STORED PROCEDURE START ===\nDatabase: DB\nSchema: dbo\n--- DEFINITION START ---\n-- Name: sneaky remark\nSELECT 2\n--- DEFINITION END ---\n=== STORED PROCEDURE END ===\n"

/-- An export with two accepted blocks carrying the *same* qualified
name `DB.dbo.Dup` and different definitions. -/
def c8DupExport : String :=
  "=== STORED PROCEDURE START ===\nDatabase: DB\nSchema: dbo\nName: Dup\n--- DEFINITION START ---\nSELECT 1\n--- DEFINITION END ---\n=== STORED PROCEDURE END ===\n=== STORED PROCEDURE START ===\nDatabase: DB\nSchema: dbo\nName: Dup\n--- DEFINITION START ---\nSELECT 2\n--- DEFINITION END ---\n=== STORED PROCEDURE END ===\n"

/-! ## Character-level lemmas -/

/-- On the relevant range, `Char.ofNat` round-trips through `toNat`. -/
theorem charOfNat_toNat_of_le :
    ∀ n : Nat, n < 91 → 65 ≤ n → (Char.ofNat (n + 32)).toNat = n + 32 := by
  decide

/-- ASCII lower-casing is idempotent. -/
theorem lowerChar_lowerChar (c : Char) :
    Py.lowerChar (Py.lowerChar c) = Py.lowerChar c := by
  unfold Py.lowerChar
  by_cases h : 65 ≤ c.toNat ∧ c.toNat ≤ 90
  · rw [if_pos h]
    have ht : (Char.ofNat (c.toNat + 32)).toNat = c.toNat + 32 :=
      charOfNat_toNat_of_le c.toNat (by omega) h.1
    rw [if_neg (by omega : ¬(65 ≤ (Char.ofNat (c.toNat + 32)).toNat ∧
      (Char.ofNat (c.toNat + 32)).toNat ≤ 90))]
  · rw [if_neg h, if_neg h]

/-- Lower-casing preserves whitespace-ness. -/
theorem isSpace_lowerChar (c : Char) : Py.isSpace (Py.lowerChar c) = Py.isSpace c := by
  unfold Py.lowerChar
  by_cases h : 65 ≤ c.toNat ∧ c.toNat ≤ 90
  · rw [if_pos h]
    have ht : (Char.ofNat (c.toNat + 32)).toNat = c.toNat + 32 :=
      charOfNat_toNat_of_le c.toNat (by omega) h.1
    unfold Py.isSpace
    rw [ht]
    simp only [decide_eq_decide]
    omega
  · rw [if_neg h]

/-- The space character is its own lower-case. -/
theorem lowerChar_space : Py.lowerChar ' ' = ' ' := by decide

/-! ## Lemmas about `wordsL` and whitespace collapsing -/

/-- `intercalate` on the empty list. -/
theorem intercalate_space_nil : List.intercalate [' '] ([] : List (List Char)) = [] := by
  simp [List.intercalate]

/-- `intercalate` on a singleton. -/
theorem intercalate_space_single (w : List Char) : List.intercalate [' '] [w] = w := by
  simp [List.intercalate]

/-- `intercalate` peels one word and one separating space. -/
theorem intercalate_space_cons (w v : List Char) (ws : List (List Char)) :
    List.intercalate [' '] (w :: v :: ws) = w ++ ' ' :: List.intercalate [' '] (v :: ws) := by
  simp [List.intercalate, List.intersperse]

/-- Every word produced by `wordsL` is nonempty and whitespace-free. -/
theorem wordsL_sound :
    ∀ l : List Char, ∀ w ∈ Py.wordsL l, w ≠ [] ∧ ∀ c ∈ w, Py.isSpace c = false := by
  intro l
  induction l using Py.wordsL.induct with
  | case1 => simp [Py.wordsL]
  | case2 c h => simp [Py.wordsL, h]
  | case3 c h =>
    simp only [Py.wordsL, if_neg h]
    intro w hw
    simp only [List.mem_singleton] at hw
    subst hw
    exact ⟨by simp, by simp [Bool.eq_false_iff.mpr h]⟩
  | case4 c d rest h ih =>
    simp only [Py.wordsL, if_pos h]
    exact ih
  | case5 c d rest h h2 ih =>
    simp only [Py.wordsL, if_neg h, if_pos h2]
    intro w hw
    rcases List.mem_cons.mp hw with rfl | hw
    · exact ⟨by simp, by simp [Bool.eq_false_iff.mpr h]⟩
    · exact ih w hw
  | case6 c d rest h h2 heq ih =>
    simp only [Py.wordsL, if_neg h, if_neg h2, heq]
    intro w hw
    simp only [List.mem_singleton] at hw
    subst hw
    exact ⟨by simp, by simp [Bool.eq_false_iff.mpr h]⟩
  | case7 c d rest h h2 w' ws' heq ih =>
    simp only [Py.wordsL, if_neg h, if_neg h2, heq]
    intro w hw
    rcases List.mem_cons.mp hw with rfl | hw
    · have hw' := ih w' (heq ▸ List.mem_cons_self w' ws')
      refine ⟨by simp, ?_⟩
      intro e he
      rcases List.mem_cons.mp he with rfl | he
      · exact Bool.eq_false_iff.mpr h
      · exact hw'.2 e he
    · exact ih w (heq ▸ List.mem_cons_of_mem w' hw)

/-- A leading whitespace character does not change the word list. -/
theorem wordsL_cons_ws (c : Char) (l : List Char) (h : Py.isSpace c = true) :
    Py.wordsL (c :: l) = Py.wordsL l := by
  cases l with
  | nil => simp [Py.wordsL, h]
  | cons d rest => simp only [Py.wordsL, if_pos h]

/-- When the head is not whitespace, the first word starts with it. -/
theorem wordsL_cons_head (d : Char) (rest : List Char) (h : ¬ Py.isSpace d = true) :
    ∃ w ws, Py.wordsL (d :: rest) = (d :: w) :: ws := by
  cases rest with
  | nil => exact ⟨[], [], by simp [Py.wordsL, h]⟩
  | cons e rest' =>
    by_cases he : Py.isSpace e = true
    · exact ⟨[], Py.wordsL (e :: rest'), by simp only [Py.wordsL, if_neg h, if_pos he]⟩
    · rcases hw : Py.wordsL (e :: rest') with _ | ⟨w, ws⟩
      · exact ⟨[], [], by simp only [Py.wordsL, if_neg h, if_neg he, hw]⟩
      · exact ⟨w, ws, by simp only [Py.wordsL, if_neg h, if_neg he, hw]⟩

/-- A whitespace-free nonempty list is its own single word. -/
theorem wordsL_single :
    ∀ w : List Char, w ≠ [] → (∀ c ∈ w, Py.isSpace c = false) → Py.wordsL w = [w] := by
  intro w
  induction w with
  | nil => intro h; exact absurd rfl h
  | cons a w' ih =>
    intro _ hall
    have ha : ¬ Py.isSpace a = true := by
      simp [hall a (List.mem_cons_self a w')]
    cases w' with
    | nil => simp [Py.wordsL, ha]
    | cons b w'' =>
      have hb : ¬ Py.isSpace b = true := by
        simp [hall b (List.mem_cons_of_mem a (List.mem_cons_self b w''))]
      have ihw : Py.wordsL (b :: w'') = [b :: w''] := by
        refine ih (by simp) ?_
        intro c hc
        exact hall c (List.mem_cons_of_mem a hc)
      simp only [Py.wordsL, if_neg ha, if_neg hb, ihw]

/-- Appending a space and more text after a whitespace-free nonempty
word leaves the word as the first word. -/
theorem wordsL_word_append :
    ∀ w : List Char, w ≠ [] → (∀ c ∈ w, Py.isSpace c = false) → ∀ X : List Char,
      Py.wordsL (w ++ ' ' :: X) = w :: Py.wordsL X := by
  intro w
  induction w with
  | nil => intro h; exact absurd rfl h
  | cons a w' ih =>
    intro _ hall X
    have ha : ¬ Py.isSpace a = true := by
      simp [hall a (List.mem_cons_self a w')]
    cases w' with
    | nil =>
      have hsp : Py.isSpace ' ' = true := by decide
      simp only [List.cons_append, List.nil_append, Py.wordsL, if_neg ha, if_pos hsp]
      rw [wordsL_cons_ws ' ' X hsp]
    | cons b w'' =>
      have hb : ¬ Py.isSpace b = true := by
        simp [hall b (List.mem_cons_of_mem a (List.mem_cons_self b w''))]
      have ihw : Py.wordsL ((b :: w'') ++ ' ' :: X) = (b :: w'') :: Py.wordsL X := by
        refine ih (by simp) ?_ X
        intro c hc
        exact hall c (List.mem_cons_of_mem a hc)
      simp only [List.cons_append] at ihw ⊢
      simp only [Py.wordsL, if_neg ha, if_neg hb, ihw]

/-- Splitting the space-joined words recovers the word list, provided
every word is nonempty and whitespace-free. -/
theorem wordsL_intercalate :
    ∀ ws : List (List Char), (∀ w ∈ ws, w ≠ [] ∧ ∀ c ∈ w, Py.isSpace c = false) →
      Py.wordsL (List.intercalate [' '] ws) = ws := by
  intro ws
  induction ws with
  | nil => intro _; simp [intercalate_space_nil, Py.wordsL]
  | cons w rest ih =>
    intro hall
    cases rest with
    | nil =>
      rw [intercalate_space_single]
      have h := hall w (List.mem_cons_self w [])
      exact wordsL_single w h.1 h.2
    | cons v rest' =>
      rw [intercalate_space_cons]
      have h := hall w (List.mem_cons_self w (v :: rest'))
      rw [wordsL_word_append w h.1 h.2]
      rw [ih (fun u hu => hall u (List.mem_cons_of_mem w hu))]

/-- `' '.join(x.split())` is a fixed point of `wordsL`-splitting. -/
theorem wordsL_splitJoinL (l : List Char) :
    Py.wordsL (Py.splitJoinL l) = Py.wordsL l := by
  unfold Py.splitJoinL
  exact wordsL_intercalate (Py.wordsL l) (wordsL_sound l)

/-- `' '.join(x.split())` is idempotent. -/
theorem splitJoinL_idem (l : List Char) :
    Py.splitJoinL (Py.splitJoinL l) = Py.splitJoinL l := by
  unfold Py.splitJoinL
  rw [show Py.wordsL (List.intercalate [' '] (Py.wordsL l)) = Py.wordsL l from
    wordsL_intercalate (Py.wordsL l) (wordsL_sound l)]

/-- Mapping a whitespace-preserving function commutes with word
splitting. -/
theorem wordsL_map (f : Char → Char) (hf : ∀ c, Py.isSpace (f c) = Py.isSpace c) :
    ∀ l : List Char, Py.wordsL (l.map f) = (Py.wordsL l).map (List.map f) := by
  intro l
  induction l using Py.wordsL.induct with
  | case1 => simp [Py.wordsL]
  | case2 c h => simp [Py.wordsL, h, hf c]
  | case3 c h =>
    have : ¬ Py.isSpace (f c) = true := by rw [hf c]; exact h
    simp [Py.wordsL, if_neg h, if_neg this]
  | case4 c d rest h ih =>
    have hfc : Py.isSpace (f c) = true := by rw [hf c]; exact h
    simp only [List.map_cons, Py.wordsL, if_pos h, if_pos hfc]
    exact ih
  | case5 c d rest h h2 ih =>
    have hfc : ¬ Py.isSpace (f c) = true := by rw [hf c]; exact h
    have hfd : Py.isSpace (f d) = true := by rw [hf d]; exact h2
    simp only [List.map_cons, Py.wordsL, if_neg h, if_neg hfc, if_pos h2, if_pos hfd]
    simp only [List.map_cons] at ih
    simp [ih]
  | case6 c d rest h h2 heq ih =>
    have hfc : ¬ Py.isSpace (f c) = true := by rw [hf c]; exact h
    have hfd : ¬ Py.isSpace (f d) = true := by rw [hf d]; exact h2
    have heqf : Py.wordsL (f d :: rest.map f) = [] := by
      have := ih
      simp only [List.map_cons] at this
      rw [this, heq]
      simp
    simp only [List.map_cons, Py.wordsL, if_neg h, if_neg hfc, if_neg h2, if_neg hfd,
      heq, heqf]
    simp
  | case7 c d rest h h2 w' ws' heq ih =>
    have hfc : ¬ Py.isSpace (f c) = true := by rw [hf c]; exact h
    have hfd : ¬ Py.isSpace (f d) = true := by rw [hf d]; exact h2
    have heqf : Py.wordsL (f d :: rest.map f) = (w'.map f) :: ws'.map (List.map f) := by
      have := ih
      simp only [List.map_cons] at this
      rw [this, heq]
      simp
    simp only [List.map_cons, Py.wordsL, if_neg h, if_neg hfc, if_neg h2, if_neg hfd,
      heq, heqf]

/-- Mapping a space-fixing function over a space-intercalation. -/
theorem map_intercalate_space (f : Char → Char) (hf : f ' ' = ' ') :
    ∀ ws : List (List Char),
      (List.intercalate [' '] ws).map f = List.intercalate [' '] (ws.map (List.map f)) := by
  intro ws
  induction ws with
  | nil => simp [intercalate_space_nil]
  | cons w rest ih =>
    cases rest with
    | nil => simp [intercalate_space_single]
    | cons v rest' =>
      simp only [List.map_cons] at ih ⊢
      rw [intercalate_space_cons, intercalate_space_cons]
      simp only [List.map_append, List.map_cons, hf]
      rw [ih]

/-- Lower-casing commutes with `' '.join(x.split())`. -/
theorem splitJoinL_lowerL (l : List Char) :
    Py.splitJoinL (Py.lowerL l) = Py.lowerL (Py.splitJoinL l) := by
  unfold Py.splitJoinL Py.lowerL
  rw [wordsL_map Py.lowerChar isSpace_lowerChar l,
    map_intercalate_space Py.lowerChar lowerChar_space]

/-- `str.lower()` is idempotent. -/
theorem lowerL_idem (l : List Char) : Py.lowerL (Py.lowerL l) = Py.lowerL l := by
  unfold Py.lowerL
  rw [List.map_map]
  exact List.map_congr_left (fun c _ => lowerChar_lowerChar c)

/-! ## Lemmas about stripping -/

/-- Unfolding `rstripL` over a cons. -/
theorem rstripL_cons (c : Char) (X : List Char) :
    Py.rstripL (c :: X) =
      if Py.rstripL X = [] then (if Py.isSpace c then [] else [c])
      else c :: Py.rstripL X := by
  unfold Py.rstripL
  rw [show (c :: X).reverse = X.reverse ++ [c] by simp]
  rw [List.dropWhile_append]
  by_cases h : (X.reverse.dropWhile Py.isSpace).isEmpty = true
  · rw [if_pos h]
    have h' : (X.reverse.dropWhile Py.isSpace).reverse = [] := by
      rw [List.isEmpty_iff.mp h]; rfl
    rw [if_pos h']
    by_cases hc : Py.isSpace c
    · simp [List.dropWhile, hc]
    · simp [List.dropWhile, hc]
  · rw [if_neg h]
    have h' : ¬ (X.reverse.dropWhile Py.isSpace).reverse = [] := by
      intro hcon
      exact h (by simp [List.isEmpty_iff, ← List.reverse_eq_nil_iff, hcon])
    rw [if_neg h']
    simp

/-- A non-whitespace head passes through `rstripL`. -/
theorem rstripL_cons_nonws (c : Char) (X : List Char) (h : ¬ Py.isSpace c = true) :
    Py.rstripL (c :: X) = c :: Py.rstripL X := by
  rw [rstripL_cons]
  by_cases hX : Py.rstripL X = []
  · rw [if_pos hX, if_neg h, hX]
  · rw [if_neg hX]

/-- `lstripL` drops a whitespace head. -/
theorem lstripL_cons_ws (c : Char) (X : List Char) (h : Py.isSpace c = true) :
    Py.lstripL (c :: X) = Py.lstripL X := by
  simp [Py.lstripL, List.dropWhile, h]

/-- `lstripL` keeps a non-whitespace head. -/
theorem lstripL_cons_nonws (c : Char) (X : List Char) (h : ¬ Py.isSpace c = true) :
    Py.lstripL (c :: X) = c :: X := by
  simp [Py.lstripL, List.dropWhile, Bool.eq_false_iff.mpr h]

/-- `dropWhile` is idempotent. -/
theorem dropWhile_dropWhile {α : Type} (p : α → Bool) (l : List α) :
    (l.dropWhile p).dropWhile p = l.dropWhile p := by
  induction l with
  | nil => rfl
  | cons a l ih =>
    by_cases h : p a
    · simp [List.dropWhile, h, ih]
    · simp [List.dropWhile, h]

/-- `lstripL` is idempotent. -/
theorem lstripL_idem (l : List Char) : Py.lstripL (Py.lstripL l) = Py.lstripL l := by
  unfold Py.lstripL
  exact dropWhile_dropWhile Py.isSpace l

/-- `rstripL` is idempotent. -/
theorem rstripL_idem (l : List Char) : Py.rstripL (Py.rstripL l) = Py.rstripL l := by
  unfold Py.rstripL
  rw [List.reverse_reverse, dropWhile_dropWhile]

/-- Left and right stripping commute. -/
theorem lstripL_rstripL_comm (l : List Char) :
    Py.lstripL (Py.rstripL l) = Py.rstripL (Py.lstripL l) := by
  induction l with
  | nil => rfl
  | cons c r ih =>
    by_cases hc : Py.isSpace c = true
    · rw [rstripL_cons, lstripL_cons_ws c r hc]
      by_cases hr : Py.rstripL r = []
      · rw [if_pos hr, if_pos hc]
        rw [← ih, hr]
      · rw [if_neg hr, lstripL_cons_ws c _ hc, ih]
    · rw [rstripL_cons_nonws c r hc, lstripL_cons_nonws c _ hc,
        lstripL_cons_nonws c r hc, rstripL_cons_nonws c r hc]

/-- `str.strip()` is idempotent. -/
theorem stripL_idem (l : List Char) : Py.stripL (Py.stripL l) = Py.stripL l := by
  unfold Py.stripL
  rw [lstripL_rstripL_comm (Py.lstripL l), lstripL_idem, rstripL_idem]

/-- `lstripL` commutes with mapping a whitespace-preserving function. -/
theorem lstripL_map (f : Char → Char) (hf : ∀ c, Py.isSpace (f c) = Py.isSpace c)
    (l : List Char) : Py.lstripL (l.map f) = (Py.lstripL l).map f := by
  unfold Py.lstripL
  have hcomp : Py.isSpace ∘ f = Py.isSpace := funext hf
  rw [List.dropWhile_map, hcomp]

/-- `rstripL` commutes with mapping a whitespace-preserving function. -/
theorem rstripL_map (f : Char → Char) (hf : ∀ c, Py.isSpace (f c) = Py.isSpace c)
    (l : List Char) : Py.rstripL (l.map f) = (Py.rstripL l).map f := by
  unfold Py.rstripL
  have hcomp : Py.isSpace ∘ f = Py.isSpace := funext hf
  rw [← List.map_reverse, List.dropWhile_map, hcomp, List.map_reverse]

/-- `str.strip()` commutes with mapping a whitespace-preserving
function (in particular with `str.lower()`). -/
theorem stripL_map (f : Char → Char) (hf : ∀ c, Py.isSpace (f c) = Py.isSpace c)
    (l : List Char) : Py.stripL (l.map f) = (Py.stripL l).map f := by
  unfold Py.stripL
  rw [lstripL_map f hf, rstripL_map f hf]


/-- `intercalate` absorbs a head character of the first word. -/
theorem intercalate_space_cons_head (c : Char) (w : List Char) (ws : List (List Char)) :
    List.intercalate [' '] ((c :: w) :: ws) = c :: List.intercalate [' '] (w :: ws) := by
  cases ws with
  | nil => rw [intercalate_space_single, intercalate_space_single]
  | cons v ws' => rw [intercalate_space_cons, intercalate_space_cons, List.cons_append]

/-- For a non-whitespace head, `splitJoinL` starts with that head. -/
theorem splitJoinL_cons_head (d : Char) (rest : List Char) (h : ¬ Py.isSpace d = true) :
    ∃ t, Py.splitJoinL (d :: rest) = d :: t := by
  obtain ⟨w, ws, hw⟩ := wordsL_cons_head d rest h
  exact ⟨List.intercalate [' '] (w :: ws), by
    rw [Py.splitJoinL, hw, intercalate_space_cons_head]⟩

/-- Unfolding `leadMark` over a cons. -/
theorem leadMark_cons (c : Char) (X : List Char) :
    leadMark (c :: X) =
      if Py.isSpace c ∧ Py.wordsL (c :: X) ≠ [] then [' '] else [] := rfl

/-- Right-stripping a whitespace-run-collapsed list yields the space
marker followed by the space-joined words. -/
theorem rstripL_collapseRunsL (l : List Char) :
    Py.rstripL (Py.collapseRunsL l) = leadMark l ++ Py.splitJoinL l := by
  induction l using Py.collapseRunsL.induct with
  | case1 => rfl
  | case2 c h =>
    simp only [Py.collapseRunsL, if_pos h, leadMark_cons]
    rw [if_neg (by simp [Py.wordsL, h])]
    simp only [Py.splitJoinL, Py.wordsL, if_pos h, intercalate_space_nil]
    decide
  | case3 c h =>
    simp only [Py.collapseRunsL, if_neg h, leadMark_cons]
    rw [if_neg (by simp [h])]
    simp only [Py.splitJoinL, Py.wordsL, if_neg h, intercalate_space_single]
    rw [rstripL_cons_nonws c [] h]
    rfl
  | case4 c d rest h h2 ih =>
    simp only [Py.collapseRunsL, if_pos h, if_pos h2]
    rw [ih]
    have hw : Py.wordsL (c :: d :: rest) = Py.wordsL (d :: rest) :=
      wordsL_cons_ws c (d :: rest) h
    simp only [leadMark_cons, Py.splitJoinL, hw, h, h2, true_and]
  | case5 c d rest h h2 ih =>
    simp only [Py.collapseRunsL, if_pos h, if_neg h2]
    have hlm : leadMark (d :: rest) = [] := by
      rw [leadMark_cons, if_neg]
      intro hcon
      exact h2 hcon.1
    obtain ⟨t, ht⟩ := splitJoinL_cons_head d rest h2
    have hr : Py.rstripL (Py.collapseRunsL (d :: rest)) = d :: t := by
      rw [ih, hlm, List.nil_append, ht]
    rw [rstripL_cons, hr, if_neg (by simp)]
    have hw : Py.wordsL (c :: d :: rest) = Py.wordsL (d :: rest) :=
      wordsL_cons_ws c (d :: rest) h
    have hwne : Py.wordsL (d :: rest) ≠ [] := by
      obtain ⟨w, ws, hw'⟩ := wordsL_cons_head d rest h2
      rw [hw']
      simp
    rw [leadMark_cons, if_pos ⟨h, by rw [hw]; exact hwne⟩]
    simp only [Py.splitJoinL, hw]
    rw [← ht]
    rfl
  | case6 c d rest h ih =>
    simp only [Py.collapseRunsL, if_neg h]
    rw [rstripL_cons_nonws c _ h, ih]
    rw [leadMark_cons (c := c), if_neg (by intro hcon; exact h hcon.1), List.nil_append]
    by_cases hd : Py.isSpace d = true
    · have hlm : leadMark (d :: rest) =
          if Py.wordsL (d :: rest) ≠ [] then [' '] else [] := by
        rw [leadMark_cons]
        by_cases hne : Py.wordsL (d :: rest) ≠ []
        · rw [if_pos ⟨hd, hne⟩, if_pos hne]
        · rw [if_neg (by intro hcon; exact hne hcon.2), if_neg hne]
      have hwc : Py.wordsL (c :: d :: rest) = [c] :: Py.wordsL (d :: rest) := by
        simp only [Py.wordsL, if_neg h, if_pos hd]
      rcases hcase : Py.wordsL (d :: rest) with _ | ⟨w, ws⟩
      · rw [hlm, if_neg (by rw [hcase]; simp)]
        simp only [Py.splitJoinL, hwc, hcase, intercalate_space_nil,
          intercalate_space_single, List.nil_append]
      · rw [hlm, if_pos (by rw [hcase]; simp)]
        simp only [Py.splitJoinL, hwc, hcase, intercalate_space_cons]
        simp
    · obtain ⟨w', ws', hw'⟩ := wordsL_cons_head d rest hd
      have hwc : Py.wordsL (c :: d :: rest) = (c :: d :: w') :: ws' := by
        simp only [Py.wordsL, if_neg h, if_neg hd, hw']
      have hlm : leadMark (d :: rest) = [] := by
        rw [leadMark_cons, if_neg]
        intro hcon
        exact hd hcon.1
      rw [hlm, List.nil_append]
      simp only [Py.splitJoinL, hwc, hw']
      rw [intercalate_space_cons_head c (d :: w') ws', intercalate_space_cons_head d w' ws']

/-- `lstripL` commutes with whitespace-run collapsing. -/
theorem lstripL_collapseRunsL (l : List Char) :
    Py.lstripL (Py.collapseRunsL l) = Py.collapseRunsL (Py.lstripL l) := by
  induction l using Py.collapseRunsL.induct with
  | case1 => rfl
  | case2 c h =>
    simp only [Py.collapseRunsL, if_pos h]
    rw [lstripL_cons_ws ' ' [] (by decide), lstripL_cons_ws c [] h]
    rfl
  | case3 c h =>
    simp only [Py.collapseRunsL, if_neg h]
    rw [lstripL_cons_nonws c [] h]
    simp only [Py.collapseRunsL, if_neg h]
  | case4 c d rest h h2 ih =>
    simp only [Py.collapseRunsL, if_pos h, if_pos h2]
    rw [lstripL_cons_ws c (d :: rest) h]
    exact ih
  | case5 c d rest h h2 ih =>
    simp only [Py.collapseRunsL, if_pos h, if_neg h2]
    rw [lstripL_cons_ws ' ' _ (by decide), lstripL_cons_ws c (d :: rest) h]
    rw [ih, lstripL_cons_nonws d rest h2]
  | case6 c d rest h ih =>
    simp only [Py.collapseRunsL, if_neg h]
    rw [lstripL_cons_nonws c _ h, lstripL_cons_nonws c (d :: rest) h]
    simp only [Py.collapseRunsL, if_neg h]

/-- Word splitting ignores leading whitespace. -/
theorem wordsL_lstripL (l : List Char) : Py.wordsL (Py.lstripL l) = Py.wordsL l := by
  induction l with
  | nil => rfl
  | cons c r ih =>
    by_cases h : Py.isSpace c = true
    · rw [lstripL_cons_ws c r h, ih, wordsL_cons_ws c r h]
    · rw [lstripL_cons_nonws c r h]

/-- The head surviving `dropWhile` refutes the predicate. -/
theorem dropWhile_head_not {α : Type} (p : α → Bool) :
    ∀ l : List α, ∀ c X, l.dropWhile p = c :: X → p c = false := by
  intro l
  induction l with
  | nil => intro c X h; cases h
  | cons a l ih =>
    intro c X h
    by_cases ha : p a
    · rw [List.dropWhile_cons, if_pos ha] at h
      exact ih c X h
    · rw [List.dropWhile_cons, if_neg ha] at h
      cases h
      exact Bool.eq_false_iff.mpr ha

/-- `strip(re.sub(r'\s+', ' ', x))` equals `' '.join(x.split())`: the
two whitespace-normalization idioms used across the scripts agree. -/
theorem stripL_collapseRunsL (l : List Char) :
    Py.stripL (Py.collapseRunsL l) = Py.splitJoinL l := by
  unfold Py.stripL
  rw [lstripL_collapseRunsL, rstripL_collapseRunsL]
  have hlm : leadMark (Py.lstripL l) = [] := by
    rcases hB : Py.lstripL l with _ | ⟨c, X⟩
    · rfl
    · rw [leadMark_cons, if_neg]
      intro hcon
      have := dropWhile_head_not Py.isSpace l c X hB
      rw [hcon.1] at this
      cases this
  rw [hlm, List.nil_append]
  unfold Py.splitJoinL
  rw [wordsL_lstripL]

/-- `' '.join(x.split())` is already stripped. -/
theorem stripL_splitJoinL (l : List Char) :
    Py.stripL (Py.splitJoinL l) = Py.splitJoinL l := by
  rw [← stripL_collapseRunsL, stripL_idem, stripL_collapseRunsL]

/-! ## Normalizer equivalences and comment-marker lemmas -/

/-- `sproc_compare.normalize_for_comparison` computes exactly the
specification's normalization pipeline. -/
theorem normalize_for_comparison_eq_spec (s : String) :
    Sproc.normalize_for_comparison s = SpecSide.normalizeSpec s := by
  unfold Sproc.normalize_for_comparison SpecSide.normalizeSpec pyLower pySplitJoin
  have h := stripL_collapseRunsL (Py.subBlockL (Py.subLineL s.data))
  simp only [h]

/-- `simple_compare.normalize_sql` also computes exactly the
specification's normalization pipeline (its final `strip()` is a
no-op on the already-collapsed text). -/
theorem normalize_sql_eq_spec (s : String) :
    Simple.normalize_sql s = SpecSide.normalizeSpec s := by
  unfold Simple.normalize_sql SpecSide.normalizeSpec pyStrip pyLower pySplitJoin
  simp only [stripL_collapseRunsL (Py.subBlockL (Py.subLineL s.data))]
  have h1 : Py.stripL (Py.lowerL (Py.splitJoinL (Py.subBlockL (Py.subLineL s.data)))) =
      Py.lowerL (Py.stripL (Py.splitJoinL (Py.subBlockL (Py.subLineL s.data)))) := by
    unfold Py.lowerL
    exact stripL_map Py.lowerChar isSpace_lowerChar _
  rw [h1, stripL_splitJoinL]

/-- A tail of a `--`-free list is `--`-free. -/
theorem hasDashDash_tail (c : Char) (rest : List Char)
    (h : Py.hasDashDash (c :: rest) = false) : Py.hasDashDash rest = false := by
  cases rest with
  | nil => rfl
  | cons e r =>
    rw [Py.hasDashDash, Bool.or_eq_false_iff] at h
    exact h.2

/-- A tail of a `/*`-free list is `/*`-free. -/
theorem hasSlashStar_tail (c : Char) (rest : List Char)
    (h : Py.hasSlashStar (c :: rest) = false) : Py.hasSlashStar rest = false := by
  cases rest with
  | nil => rfl
  | cons e r =>
    rw [Py.hasSlashStar, Bool.or_eq_false_iff] at h
    exact h.2

/-- If a list has no `--`, the line-comment pass leaves it unchanged
(fuel-indexed form). -/
theorem subLineAux_noop :
    ∀ fuel : Nat, ∀ l : List Char, Py.hasDashDash l = false → Py.subLineAux fuel l = l := by
  intro fuel l
  induction fuel, l using Py.subLineAux.induct with
  | case1 l => intro _; rfl
  | case2 n => intro _; rfl
  | case3 fuel rest ih =>
    intro h
    rw [Py.hasDashDash, Bool.or_eq_false_iff] at h
    simp at h
  | case4 fuel c rest hne ih =>
    intro h
    rw [Py.subLineAux, ih (hasDashDash_tail c rest h)]
    exact hne

/-- If a list has no `--`, the line-comment pass leaves it unchanged. -/
theorem subLineL_noop (l : List Char) (h : Py.hasDashDash l = false) :
    Py.subLineL l = l :=
  subLineAux_noop (l.length + 1) l h

/-- If a list has no `/*`, the block-comment pass leaves it unchanged
(fuel-indexed form). -/
theorem subBlockAux_noop :
    ∀ fuel : Nat, ∀ l : List Char, Py.hasSlashStar l = false → Py.subBlockAux fuel l = l := by
  intro fuel l
  induction fuel, l using Py.subBlockAux.induct with
  | case1 l => intro _; rfl
  | case2 n => intro _; rfl
  | case3 fuel rest rest' hfc ih =>
    intro h
    rw [Py.hasSlashStar, Bool.or_eq_false_iff] at h
    simp at h
  | case4 fuel rest hfc =>
    intro h
    rw [Py.hasSlashStar, Bool.or_eq_false_iff] at h
    simp at h
  | case5 fuel c rest hne ih =>
    intro h
    rw [Py.subBlockAux, ih (hasSlashStar_tail c rest h)]
    exact hne

/-- If a list has no `/*`, the block-comment pass leaves it unchanged. -/
theorem subBlockL_noop (l : List Char) (h : Py.hasSlashStar l = false) :
    Py.subBlockL l = l :=
  subBlockAux_noop (l.length + 1) l h

/-! Association-list lemmas -/

theorem lookupAL_insertAL_self {α : Type} (k : String) (v : α) (m : List (String × α)) :
    lookupAL k (insertAL k v m) = some v := by
  induction m with
  | nil => simp [insertAL, lookupAL]
  | cons kv rest ih =>
    obtain ⟨k', v'⟩ := kv
    by_cases h : k' = k
    · simp [insertAL, h, lookupAL]
    · simp only [insertAL, if_neg h, lookupAL]
      exact ih

theorem lookupAL_insertAL_other {α : Type} (k k' : String) (v : α)
    (m : List (String × α)) (h : k' ≠ k) :
    lookupAL k (insertAL k' v m) = lookupAL k m := by
  induction m with
  | nil => simp [insertAL, lookupAL, h]
  | cons kv rest ih =>
    obtain ⟨k'', v''⟩ := kv
    by_cases h2 : k'' = k'
    · simp only [insertAL, if_pos h2, lookupAL]
      rw [if_neg h, if_neg (h2 ▸ h)]
    · simp only [insertAL, if_neg h2, lookupAL]
      by_cases h3 : k'' = k
      · rw [if_pos h3, if_pos h3]
      · rw [if_neg h3, if_neg h3]
        exact ih

theorem mem_insertAL {α : Type} (p : String × α) (k : String) (v : α) :
    ∀ m : List (String × α), p ∈ insertAL k v m → p = (k, v) ∨ p ∈ m := by
  intro m
  induction m with
  | nil => intro h; simp [insertAL] at h; exact Or.inl h
  | cons kv rest ih =>
    intro h
    obtain ⟨k', v'⟩ := kv
    by_cases h2 : k' = k
    · simp only [insertAL, if_pos h2] at h
      rcases List.mem_cons.mp h with h | h
      · exact Or.inl h
      · exact Or.inr (List.mem_cons_of_mem _ h)
    · simp only [insertAL, if_neg h2] at h
      rcases List.mem_cons.mp h with h | h
      · exact Or.inr (List.mem_cons.mpr (Or.inl h))
      · rcases ih h with h | h
        · exact Or.inl h
        · exact Or.inr (List.mem_cons_of_mem _ h)

theorem mem_keysAL_insertAL {α : Type} (a k : String) (v : α) :
    ∀ m : List (String × α), a ∈ keysAL (insertAL k v m) ↔ a = k ∨ a ∈ keysAL m := by
  intro m
  induction m with
  | nil => simp [insertAL, keysAL]
  | cons kv rest ih =>
    obtain ⟨k', v'⟩ := kv
    by_cases h2 : k' = k
    · subst h2
      simp [insertAL, keysAL]
    · simp only [insertAL, if_neg h2, keysAL, List.map_cons, List.mem_cons] at ih ⊢
      tauto

theorem nodup_keysAL_insertAL {α : Type} (k : String) (v : α) :
    ∀ m : List (String × α), (keysAL m).Nodup → (keysAL (insertAL k v m)).Nodup := by
  intro m
  induction m with
  | nil => intro _; simp [insertAL, keysAL]
  | cons kv rest ih =>
    intro h
    obtain ⟨k', v'⟩ := kv
    simp only [keysAL, List.map_cons, List.nodup_cons] at h
    by_cases h2 : k' = k
    · have hins : insertAL k v ((k', v') :: rest) = (k, v) :: rest := by
        simp [insertAL, h2]
      rw [hins]
      simp only [keysAL, List.map_cons, List.nodup_cons]
      exact ⟨h2 ▸ h.1, h.2⟩
    · simp only [insertAL, if_neg h2, keysAL, List.map_cons, List.nodup_cons]
      constructor
      · intro hcon
        rcases (mem_keysAL_insertAL k' k v rest).mp hcon with h3 | h3
        · exact h2 h3
        · exact h.1 h3
      · exact ih h.2

/-- Looking a key up after building a mapping by repeated dict
assignment yields the value of the *last* pair with that key. -/
theorem lookupAL_foldl_insert {α : Type} :
    ∀ (l : List (String × α)) (acc : List (String × α)) (k : String),
      lookupAL k (l.foldl (fun acc kv => insertAL kv.1 kv.2 acc) acc) =
        (match (l.filter (fun kv => kv.1 = k)).getLast? with
          | some kv => some kv.2
          | none => lookupAL k acc) := by
  intro l
  induction l with
  | nil => intro acc k; simp
  | cons kv rest ih =>
    intro acc k
    rw [List.foldl_cons, ih]
    by_cases h : kv.1 = k
    · rw [List.filter_cons, if_pos (by simp [h])]
      rcases hf : rest.filter (fun kv => decide (kv.1 = k)) with _ | ⟨x, xs⟩
      · rw [hf]
        simp only [List.getLast?_singleton, List.getLast?_nil]
        rw [← h, lookupAL_insertAL_self]
      · rw [hf, List.getLast?_cons_cons]
        rcases hg : (x :: xs).getLast? with _ | y
        · rw [List.getLast?_eq_none_iff] at hg
          cases hg
        · rfl
    · rw [List.filter_cons, if_neg (by simp [h])]
      rcases hf : rest.filter (fun kv => decide (kv.1 = k)) with _ | ⟨x, xs⟩
      · rw [hf]
        simp only [List.getLast?_nil]
        exact lookupAL_insertAL_other k kv.1 kv.2 acc h
      · rw [hf]
        rcases hg : (x :: xs).getLast? with _ | y
        · rw [List.getLast?_eq_none_iff] at hg
          cases hg
        · rfl

/-- Keys stay duplicate-free while building a mapping by repeated dict
assignment. -/
theorem nodup_keysAL_foldl_insert {α : Type} :
    ∀ (l : List (String × α)) (acc : List (String × α)), (keysAL acc).Nodup →
      (keysAL (l.foldl (fun acc kv => insertAL kv.1 kv.2 acc) acc)).Nodup := by
  intro l
  induction l with
  | nil => intro acc h; exact h
  | cons kv rest ih =>
    intro acc h
    rw [List.foldl_cons]
    exact ih _ (nodup_keysAL_insertAL kv.1 kv.2 acc h)

/-- Every pair of the built mapping comes from the inserted list (or
the seed). -/
theorem mem_foldl_insert {α : Type} :
    ∀ (l : List (String × α)) (acc : List (String × α)) (p : String × α),
      p ∈ l.foldl (fun acc kv => insertAL kv.1 kv.2 acc) acc → p ∈ l ∨ p ∈ acc := by
  intro l
  induction l with
  | nil => intro acc p h; exact Or.inr h
  | cons kv rest ih =>
    intro acc p h
    rw [List.foldl_cons] at h
    rcases ih _ p h with h | h
    · exact Or.inl (List.mem_cons_of_mem _ h)
    · rcases mem_insertAL p kv.1 kv.2 acc h with h | h
      · exact Or.inl (List.mem_cons.mpr (Or.inl (by rw [h])))
      · exact Or.inr h

/-- A successful lookup is a membership. -/
theorem lookupAL_mem {α : Type} (k : String) (v : α) :
    ∀ m : List (String × α), lookupAL k m = some v → (k, v) ∈ m := by
  intro m
  induction m with
  | nil => intro h; cases h
  | cons kv rest ih =>
    intro h
    obtain ⟨k', v'⟩ := kv
    by_cases h2 : k' = k
    · rw [lookupAL, if_pos h2] at h
      injection h with h
      exact List.mem_cons.mpr (Or.inl (by rw [h2, h]))
    · rw [lookupAL, if_neg h2] at h
      exact List.mem_cons_of_mem _ (ih h)

/-- A key in the key list has a value. -/
theorem lookupAL_isSome_of_mem_keys {α : Type} (k : String) :
    ∀ m : List (String × α), k ∈ keysAL m → ∃ v, lookupAL k m = some v := by
  intro m
  induction m with
  | nil => intro h; cases h
  | cons kv rest ih =>
    intro h
    obtain ⟨k', v'⟩ := kv
    by_cases h2 : k' = k
    · exact ⟨v', by rw [lookupAL, if_pos h2]⟩
    · rcases List.mem_cons.mp h with h | h
      · exact absurd h.symm h2
      · obtain ⟨v, hv⟩ := ih h
        exact ⟨v, by rw [lookupAL, if_neg h2]; exact hv⟩

/-- A successful lookup puts the key among the keys. -/
theorem mem_keysAL_of_lookupAL {α : Type} (k : String) (v : α) (m : List (String × α))
    (h : lookupAL k m = some v) : k ∈ keysAL m := by
  have := lookupAL_mem k v m h
  exact List.mem_map.mpr ⟨(k, v), this, rfl⟩

/-- Membership in a `filterMap` whose function tags results with the
scanned key. -/
theorem mem_filterMap_keyed {β : Type} (l : List String)
    (g : String → Option (String × β)) (hg : ∀ a p, g a = some p → p.1 = a)
    (k : String) (d : β) :
    (k, d) ∈ l.filterMap g ↔ k ∈ l ∧ g k = some (k, d) := by
  constructor
  · intro h
    obtain ⟨a, ha, hga⟩ := List.mem_filterMap.mp h
    have hak : a = k := (hg a (k, d) hga).symm
    subst hak
    exact ⟨ha, hga⟩
  · intro h
    exact List.mem_filterMap.mpr ⟨k, h.1, h.2⟩

/-- Key membership in such a `filterMap`. -/
theorem mem_keys_filterMap_keyed {β : Type} (l : List String)
    (g : String → Option (String × β)) (hg : ∀ a p, g a = some p → p.1 = a)
    (k : String) :
    k ∈ keysAL (l.filterMap g) ↔ k ∈ l ∧ ∃ d, g k = some (k, d) := by
  constructor
  · intro h
    obtain ⟨p, hp, hpk⟩ := List.mem_map.mp h
    obtain ⟨a, d⟩ := p
    simp only at hpk
    subst hpk
    have := (mem_filterMap_keyed l g hg _ _).mp hp
    exact ⟨this.1, _, this.2⟩
  · intro ⟨h1, d, h2⟩
    exact List.mem_map.mpr ⟨(k, d), (mem_filterMap_keyed l g hg k d).mpr ⟨h1, h2⟩, rfl⟩

/-- The changed-entry function of `Sproc.compare_procedures` tags its
result with the scanned key. -/
theorem sproc_changed_keyed (src tgt : List (String × String)) :
    ∀ a p, (fun k =>
        match lookupAL k src, lookupAL k tgt with
        | some ds, some dt =>
          if Sproc.normalize_for_comparison ds ≠ Sproc.normalize_for_comparison dt then
            some (k, Difflib.unified_diff
              ((Py.splitlinesL ds.data).map String.mk)
              ((Py.splitlinesL dt.data).map String.mk)
              "Source" "Target" 3 "")
          else none
        | _, _ => none) a = some p → p.1 = a := by
  intro a p h
  simp only at h
  cases hs : lookupAL a src with
  | none =>
    simp only [hs] at h
    exact Option.noConfusion h
  | some ds =>
    cases ht : lookupAL a tgt with
    | none =>
      simp only [hs, ht] at h
      exact Option.noConfusion h
    | some dt =>
      simp only [hs, ht] at h
      split at h
      · injection h with h
        rw [← h]
      · cases h

/-- The changed-entry function of `CSP.get_comparison_results` tags its
result with the scanned key. -/
theorem csp_changed_keyed (h : String → String) (src tgt : List (String × CSP.StoredProcedure)) :
    ∀ a p, (fun k =>
        match lookupAL k src, lookupAL k tgt with
        | some sp, some tp =>
          if sp.get_definition_hash h ≠ tp.get_definition_hash h then
            some (k, Difflib.unified_diff
              ((Py.splitlinesL sp.definition.data).map String.mk)
              ((Py.splitlinesL tp.definition.data).map String.mk)
              "Source" "Target" 3 "")
          else none
        | _, _ => none) a = some p → p.1 = a := by
  intro a p hp
  simp only at hp
  cases hs : lookupAL a src with
  | none =>
    simp only [hs] at hp
    exact Option.noConfusion hp
  | some sp =>
    cases ht : lookupAL a tgt with
    | none =>
      simp only [hs, ht] at hp
      exact Option.noConfusion hp
    | some tp =>
      simp only [hs, ht] at hp
      split at hp
      · injection hp with hp
        rw [← hp]
      · cases hp

/-- Buckets built from filtered key lists and a changed set contained
in the common keys always satisfy the partition invariant. -/
theorem partitionHolds_buckets (srcKeys tgtKeys changed : List String)
    (hC : ∀ k ∈ changed, k ∈ srcKeys ∧ k ∈ tgtKeys) :
    SpecSide.PartitionHolds srcKeys tgtKeys
      (srcKeys.filter (fun k => ¬ k ∈ tgtKeys))
      (tgtKeys.filter (fun k => ¬ k ∈ srcKeys)) changed := by
  intro k
  have hS : k ∈ srcKeys.filter (fun k => ¬ k ∈ tgtKeys) ↔ k ∈ srcKeys ∧ k ∉ tgtKeys := by
    simp [List.mem_filter]
  have hT : k ∈ tgtKeys.filter (fun k => ¬ k ∈ srcKeys) ↔ k ∈ tgtKeys ∧ k ∉ srcKeys := by
    simp [List.mem_filter]
  constructor
  · refine ⟨?_, ?_, ?_⟩
    · intro ⟨h1, h2⟩
      exact (hS.mp h1).2 ((hT.mp h2).1)
    · intro ⟨h1, h2⟩
      exact (hS.mp h1).2 ((hC k h2).2)
    · intro ⟨h1, h2⟩
      exact (hT.mp h1).2 ((hC k h2).1)
  · constructor
    · intro h
      by_cases hsrc : k ∈ srcKeys <;> by_cases htgt : k ∈ tgtKeys
      · by_cases hch : k ∈ changed
        · tauto
        · tauto
      · exact Or.inl (hS.mpr ⟨hsrc, htgt⟩)
      · exact Or.inr (Or.inl (hT.mpr ⟨htgt, hsrc⟩))
      · tauto
    · intro h
      rcases h with h | h | h | h
      · exact Or.inl (hS.mp h).1
      · exact Or.inr (hT.mp h).1
      · exact Or.inl (hC k h).1
      · exact Or.inl h.1

/-- If the entry function returns nothing at `k` (and tags results with
the scanned key), `k` is absent from the `filterMap`. -/
theorem lookupAL_filterMap_none {β : Type} (g : String → Option (String × β))
    (hg : ∀ a p, g a = some p → p.1 = a) (k : String) (hk : g k = none) :
    ∀ l : List String, lookupAL k (l.filterMap g) = none := by
  intro l
  induction l with
  | nil => rfl
  | cons a rest ih =>
    rw [List.filterMap_cons]
    cases ha : g a with
    | none => exact ih
    | some p =>
      rw [lookupAL]
      have hpa : p.1 = a := hg a p ha
      by_cases hak : p.1 = k
      · rw [← hpa, hak] at ha
        rw [ha] at hk
        exact Option.noConfusion hk
      · rw [if_neg hak]
        exact ih

/-! ## Claim theorems -/

set_option maxRecDepth 20000

/-- C1: the specification's normalization pipeline — remove line
comments, remove block comments, collapse whitespace runs and trim,
then lower-case, in that order — is computed exactly by
`normalize_for_comparison` and `normalize_sql`.
`get_normalized_definition`, however, collapses whitespace *first*, so
on `"-- c\nSELECT 1"` the line comment swallows the whole rest of the
text and the result is `""`, where the specified pipeline yields
`"select 1"`. -/
theorem C1_normalize_pipeline :
    (∀ s : String, Sproc.normalize_for_comparison s = SpecSide.normalizeSpec s) ∧
    (∀ s : String, Simple.normalize_sql s = SpecSide.normalizeSpec s) ∧
    CSP.StoredProcedure.get_normalized_definition
        ⟨"DB", "dbo", "P", "-- c\nSELECT 1", "", ""⟩ = "" ∧
    SpecSide.normalizeSpec "-- c\nSELECT 1" = "select 1" :=
  ⟨normalize_for_comparison_eq_spec, normalize_sql_eq_spec, by decide, by decide⟩

/-- C2: in `compare_storeprocs_latest.py` the mapping key is the
lower-cased qualified name while the stored display value keeps the
original casing, and `DB.dbo.GetUser` versus `db.DBO.getuser` with
identical bodies compare with zero differences; but
`compare_stored_procedures.py` keys by the original-case full name, so
the same pair is reported once missing and once extra. -/
theorem C2_case_insensitive_keys :
    Latest.parse_stored_procedures c2SourceExport =
      [("db.dbo.getuser", ⟨"DB.dbo.GetUser", "SELECT 1"⟩)] ∧
    Latest.parse_stored_procedures c2TargetExport =
      [("db.dbo.getuser", ⟨"db.DBO.getuser", "SELECT 1"⟩)] ∧
    Latest.main_compare (Latest.parse_stored_procedures c2SourceExport)
        (Latest.parse_stored_procedures c2TargetExport) = ⟨[], [], []⟩ ∧
    (CSP.get_comparison_results (fun s => s) (CSP.parse_file c2SourceExport)
        (CSP.parse_file c2TargetExport)).only_in_source = ["DB.dbo.GetUser"] ∧
    (CSP.get_comparison_results (fun s => s) (CSP.parse_file c2SourceExport)
        (CSP.parse_file c2TargetExport)).only_in_target = ["db.DBO.getuser"] :=
  ⟨by decide, by decide, by decide, by decide, by decide⟩

/-- C3: for every pair of input mappings (and any digest function),
`onlyInSource`, `onlyInTarget` and the changed keys are pairwise
disjoint, and their union together with the unchanged common keys is
exactly the union of the two input key sets — for the hash-based
comparer of `compare_stored_procedures.py` and the direct comparer of
`sproc_compare.py` alike. -/
theorem C3_buckets_partition :
    (∀ (h : String → String) (src tgt : List (String × CSP.StoredProcedure)),
      SpecSide.PartitionHolds (keysAL src) (keysAL tgt)
        (CSP.get_comparison_results h src tgt).only_in_source
        (CSP.get_comparison_results h src tgt).only_in_target
        (keysAL (CSP.get_comparison_results h src tgt).different_procs)) ∧
    (∀ src tgt : List (String × String),
      SpecSide.PartitionHolds (keysAL src) (keysAL tgt)
        (Sproc.compare_procedures src tgt).only_in_source
        (Sproc.compare_procedures src tgt).only_in_target
        (keysAL (Sproc.compare_procedures src tgt).different_procs)) := by
  constructor
  · intro h src tgt
    show SpecSide.PartitionHolds _ _
      ((keysAL src).filter (fun k => ¬ k ∈ keysAL tgt))
      ((keysAL tgt).filter (fun k => ¬ k ∈ keysAL src)) _
    apply partitionHolds_buckets
    intro k hk
    have hmem := (mem_keys_filterMap_keyed _ _ (csp_changed_keyed h src tgt) k).mp hk
    have hcommon := hmem.1
    rw [List.mem_filter] at hcommon
    exact ⟨hcommon.1, by simpa using hcommon.2⟩
  · intro src tgt
    show SpecSide.PartitionHolds _ _
      ((keysAL src).filter (fun k => ¬ k ∈ keysAL tgt))
      ((keysAL tgt).filter (fun k => ¬ k ∈ keysAL src)) _
    apply partitionHolds_buckets
    intro k hk
    have hmem := (mem_keys_filterMap_keyed _ _ (sproc_changed_keyed src tgt) k).mp hk
    have hcommon := hmem.1
    rw [List.mem_filter] at hcommon
    exact ⟨hcommon.1, by simpa using hcommon.2⟩

/-- C3 witness: the partition invariant instantiated at a concrete
one-entry source and empty target. -/
theorem C3_buckets_partition_witness :
    SpecSide.PartitionHolds (keysAL [("a", "SELECT 1")])
      (keysAL ([] : List (String × String)))
      (Sproc.compare_procedures [("a", "SELECT 1")] []).only_in_source
      (Sproc.compare_procedures [("a", "SELECT 1")] []).only_in_target
      (keysAL (Sproc.compare_procedures [("a", "SELECT 1")] []).different_procs) :=
  C3_buckets_partition.2 [("a", "SELECT 1")] []

/-- C4 counterexample: `extract_procedures` of `simple_compare.py`
accepts a block that has a `Name:` line but *no* `Database:` or
`Schema:` line, storing it under `Unknown.Unknown.Foo` — the claim
says such a block is silently dropped.  (`parse_file` of
`compare_stored_procedures.py` does drop it.) -/
theorem C4_counterexample :
    Simple.extract_procedures c4NameOnlyExport =
      some [("Unknown.Unknown.Foo", "SELECT 1")] ∧
    CSP.parse_file c4NameOnlyExport = [] :=
  ⟨by decide, by decide⟩

/-- C4 (amended): every record accepted by `parse_file` has non-empty
`database`, `schema`, `name` and `definition`; and a malformed block in
the middle of a file does not stop the parse — the surrounding blocks
are still accepted.  (`extract_procedures` of `simple_compare.py`
requires only the `Name:` field, defaulting the rest to `Unknown`.) -/
theorem C4_parse_acceptance :
    (∀ (t : String) (k : String) (r : CSP.StoredProcedure),
      (k, r) ∈ CSP.parse_file t →
        r.database ≠ "" ∧ r.schema ≠ "" ∧ r.name ≠ "" ∧ r.definition ≠ "") ∧
    keysAL (CSP.parse_file c4MixedExport) = ["DB.dbo.First", "DB.dbo.Second"] := by
  constructor
  · intro t k r hmem
    unfold CSP.parse_file at hmem
    rcases mem_foldl_insert (CSP.acceptedRecords t) [] (k, r) hmem with hacc | hacc
    · obtain ⟨blk, _, hb⟩ := List.mem_filterMap.mp hacc
      unfold CSP.blockRecord at hb
      dsimp only at hb
      split at hb
      · rename_i hcond
        injection hb with hb
        have hr : r = ⟨CSP.extract_value ⟨blk⟩ "Database:", CSP.extract_value ⟨blk⟩ "Schema:",
            CSP.extract_value ⟨blk⟩ "Name:", CSP.extractDefinition blk,
            CSP.extract_value ⟨blk⟩ "CreateDate:", CSP.extract_value ⟨blk⟩ "ModifyDate:"⟩ :=
          (congrArg Prod.snd hb).symm
        rw [hr]
        exact ⟨hcond.1, hcond.2.1, hcond.2.2.1, hcond.2.2.2⟩
      · exact Option.noConfusion hb
    · cases hacc
  · decide

/-- C4 witness: the first record of the mixed export is accepted and
has all four fields non-empty. -/
theorem C4_parse_acceptance_witness :
    ("DB.dbo.First", (⟨"DB", "dbo", "First", "SELECT 1", "", ""⟩ : CSP.StoredProcedure)) ∈
        CSP.parse_file c4MixedExport ∧
    ((⟨"DB", "dbo", "First", "SELECT 1", "", ""⟩ : CSP.StoredProcedure).database ≠ "" ∧
      (⟨"DB", "dbo", "First", "SELECT 1", "", ""⟩ : CSP.StoredProcedure).schema ≠ "" ∧
      (⟨"DB", "dbo", "First", "SELECT 1", "", ""⟩ : CSP.StoredProcedure).name ≠ "" ∧
      (⟨"DB", "dbo", "First", "SELECT 1", "", ""⟩ : CSP.StoredProcedure).definition ≠ "") :=
  ⟨by decide, C4_parse_acceptance.1 c4MixedExport "DB.dbo.First" _ (by decide)⟩

/-- C5 counterexample: on a common key whose raw definitions are
`a\nb\nx` and `a\nb\ny`, `compare_procedures` records a unified diff
with the library-default three context lines — including the context
lines `' a'` and `' b'` — which differs from the zero-context unified
diff of the same inputs that the claim describes. -/
theorem C5_counterexample :
    lookupAL "x" (Sproc.compare_procedures
        [("x", "a\nb\nx")] [("x", "a\nb\ny")]).different_procs =
      some ["--- Source", "+++ Target", "@@ -1,3 +1,3 @@", " a", " b", "-x", "+y"] ∧
    Difflib.unified_diff
        ((Py.splitlinesL ("a\nb\nx" : String).data).map String.mk)
        ((Py.splitlinesL ("a\nb\ny" : String).data).map String.mk)
        "Source" "Target" 0 "" =
      ["--- Source", "+++ Target", "@@ -3 +3 @@", "-x", "+y"] ∧
    (["--- Source", "+++ Target", "@@ -1,3 +1,3 @@", " a", " b", "-x", "+y"] : List String) ≠
      ["--- Source", "+++ Target", "@@ -3 +3 @@", "-x", "+y"] :=
  ⟨by decide, by decide, by decide⟩

/-- C5 (amended): a changed entry exists for a key exactly when the key
is present in both inputs and the normalized definitions differ, and
the recorded value is the line-based unified diff of the *raw*
definitions, labelled `Source`/`Target`, with the library-default
*three* context lines. -/
theorem C5_changed_entries :
    ∀ (src tgt : List (String × String)) (k : String) (d : List String),
      (k, d) ∈ (Sproc.compare_procedures src tgt).different_procs ↔
        ∃ ds dt, lookupAL k src = some ds ∧ lookupAL k tgt = some dt ∧
          Sproc.normalize_for_comparison ds ≠ Sproc.normalize_for_comparison dt ∧
          d = Difflib.unified_diff ((Py.splitlinesL ds.data).map String.mk)
            ((Py.splitlinesL dt.data).map String.mk) "Source" "Target" 3 "" := by
  intro src tgt k d
  constructor
  · intro h
    obtain ⟨hcommon, hgk⟩ := (mem_filterMap_keyed _ _ (sproc_changed_keyed src tgt) k d).mp h
    cases hs : lookupAL k src with
    | none =>
      simp only [hs] at hgk
      exact Option.noConfusion hgk
    | some ds =>
      cases ht : lookupAL k tgt with
      | none =>
        simp only [hs, ht] at hgk
        exact Option.noConfusion hgk
      | some dt =>
        simp only [hs, ht] at hgk
        split at hgk
        · rename_i hne
          injection hgk with hgk
          refine ⟨ds, dt, rfl, rfl, hne, ?_⟩
          have hsnd := congrArg Prod.snd hgk
          simpa using hsnd.symm
        · exact Option.noConfusion hgk
  · intro ⟨ds, dt, hs, ht, hne, hd⟩
    apply (mem_filterMap_keyed _ _ (sproc_changed_keyed src tgt) k d).mpr
    constructor
    · rw [List.mem_filter]
      refine ⟨mem_keysAL_of_lookupAL k ds src hs, ?_⟩
      simpa using mem_keysAL_of_lookupAL k dt tgt ht
    · simp only [hs, ht]
      rw [if_pos hne, hd]

/-- C5 witness: the characterization instantiated at the concrete
three-line example, producing its three-context diff entry. -/
theorem C5_changed_entries_witness :
    ("x", ["--- Source", "+++ Target", "@@ -1,3 +1,3 @@", " a", " b", "-x", "+y"]) ∈
      (Sproc.compare_procedures [("x", "a\nb\nx")] [("x", "a\nb\ny")]).different_procs :=
  (C5_changed_entries [("x", "a\nb\nx")] [("x", "a\nb\ny")] "x" _).mpr
    ⟨"a\nb\nx", "a\nb\ny", by decide, by decide, by decide, by decide⟩

/-- C6 counterexample: `normalize` is not idempotent — on the input
made of a dash, an empty block comment and a dash, removing the block
comment glues the two dashes into a new line-comment marker, so a
second normalization erases everything. -/
theorem C6_counterexample :
    Sproc.normalize_for_comparison (Sproc.normalize_for_comparison "-/**/-") ≠
      Sproc.normalize_for_comparison "-/**/-" := by
  decide

/-- C6 (amended): `normalize` is idempotent on every input whose
normalization contains neither a `--` line-comment marker nor a `/*`
block-comment opener; in general a second application can differ,
because removing a block comment can create a new comment marker. -/
theorem C6_normalize_idem (x : String)
    (h1 : Py.hasDashDash (Sproc.normalize_for_comparison x).data = false)
    (h2 : Py.hasSlashStar (Sproc.normalize_for_comparison x).data = false) :
    Sproc.normalize_for_comparison (Sproc.normalize_for_comparison x) =
      Sproc.normalize_for_comparison x := by
  have hdata : (Sproc.normalize_for_comparison x).data =
      Py.lowerL (Py.splitJoinL (Py.subBlockL (Py.subLineL x.data))) := rfl
  unfold Sproc.normalize_for_comparison pyLower pySplitJoin
  apply String.ext
  show Py.lowerL (Py.splitJoinL (Py.subBlockL (Py.subLineL
      (Sproc.normalize_for_comparison x).data))) =
    (Sproc.normalize_for_comparison x).data
  rw [subLineL_noop _ h1, subBlockL_noop _ h2, hdata]
  rw [splitJoinL_lowerL, splitJoinL_idem, lowerL_idem]

/-- C6 witness: a comment-free SQL snippet normalizes to a fixed
point. -/
theorem C6_normalize_idem_witness :
    (Py.hasDashDash (Sproc.normalize_for_comparison "SELECT 1 FROM t").data = false ∧
      Py.hasSlashStar (Sproc.normalize_for_comparison "SELECT 1 FROM t").data = false) ∧
    Sproc.normalize_for_comparison (Sproc.normalize_for_comparison "SELECT 1 FROM t") =
      Sproc.normalize_for_comparison "SELECT 1 FROM t" :=
  ⟨⟨by decide, by decide⟩, C6_normalize_idem "SELECT 1 FROM t" (by decide) (by decide)⟩

/-- C7 counterexample: the stored raw definition is *not* merely the
inner text trimmed of leading/trailing blank lines —
`parse_procedures_from_file` applies `str.strip()`, which also removes
the four-space indentation of the first definition line. -/
theorem C7_counterexample :
    Fixed.parse_procedures_from_file c7Export =
      [("D.s.P", ⟨"CREATE X\n        Y", "create x y"⟩)] ∧
    ("CREATE X\n        Y" : String) ≠ SpecSide.trimBlankLines c7Inner ∧
    SpecSide.trimBlankLines c7Inner = "    CREATE X\n        Y" :=
  ⟨by decide, by decide, by decide⟩

/-- C7 (amended): `parse_procedures_from_file` stores the inner text
with *all* leading and trailing whitespace stripped (so every stored
definition is a `strip` fixed point, first-line indentation included),
while interior line formatting is preserved; `extract_procedures` of
`simple_compare.py` instead strips every collected line individually,
so no indentation survives at all. -/
theorem C7_definition_trimming :
    (∀ (t : String) (k : String) (r : Fixed.FixedProc),
      (k, r) ∈ Fixed.parse_procedures_from_file t →
        pyStrip r.definition = r.definition) ∧
    pyStrip c7Inner = "CREATE X\n        Y" ∧
    Simple.extract_procedures c7Export = some [("D.s.P", "CREATE X\nY")] := by
  refine ⟨?_, by decide, by decide⟩
  intro t k r hmem
  unfold Fixed.parse_procedures_from_file at hmem
  rcases mem_foldl_insert _ [] (k, r) hmem with hacc | hacc
  · obtain ⟨blk, _, hb⟩ := List.mem_filterMap.mp hacc
    unfold Fixed.blockEntry at hb
    dsimp only at hb
    split at hb
    · rename_i d s n inner hd hs hn hinner
      injection hb with hb
      have hr : r = ⟨⟨Py.stripL inner⟩, pySplitJoin (pyLower ⟨Py.stripL inner⟩)⟩ :=
        (congrArg Prod.snd hb).symm
      rw [hr]
      show pyStrip ⟨Py.stripL inner⟩ = _
      unfold pyStrip
      exact congrArg String.mk (stripL_idem inner)
    · exact Option.noConfusion hb
  · cases hacc

/-- C7 witness: the record parsed from the indented export is a
`strip` fixed point. -/
theorem C7_definition_trimming_witness :
    ("D.s.P", (⟨"CREATE X\n        Y", "create x y"⟩ : Fixed.FixedProc)) ∈
        Fixed.parse_procedures_from_file c7Export ∧
    pyStrip (⟨"CREATE X\n        Y", "create x y"⟩ : Fixed.FixedProc).definition =
      (⟨"CREATE X\n        Y", "create x y"⟩ : Fixed.FixedProc).definition :=
  ⟨by decide, C7_definition_trimming.1 c7Export "D.s.P" _ (by decide)⟩

/-- C8: both parsers build their mapping by a single linear pass of
dict assignments, so a lookup returns the value of the *last* accepted
block with that qualified name, and the key list of the result is
duplicate-free. -/
theorem C8_last_wins :
    (∀ (t : String) (k : String),
      lookupAL k (CSP.parse_file t) =
        (((CSP.acceptedRecords t).filter (fun kv => kv.1 = k)).getLast?).map Prod.snd) ∧
    (∀ t : String, (keysAL (CSP.parse_file t)).Nodup) ∧
    (∀ (t : String) (k : String),
      lookupAL k (Sproc.parse_stored_procedures t) =
        (((Sproc.acceptedEntries t).filter (fun kv => kv.1 = k)).getLast?).map Prod.snd) ∧
    (∀ t : String, (keysAL (Sproc.parse_stored_procedures t)).Nodup) := by
  refine ⟨?_, ?_, ?_, ?_⟩
  · intro t k
    have hh := lookupAL_foldl_insert (CSP.acceptedRecords t) [] k
    unfold CSP.parse_file
    rw [hh]
    cases hc : ((CSP.acceptedRecords t).filter (fun kv => decide (kv.1 = k))).getLast? with
    | none => rfl
    | some kv => rfl
  · intro t
    exact nodup_keysAL_foldl_insert (CSP.acceptedRecords t) [] (by simp [keysAL])
  · intro t k
    have hh := lookupAL_foldl_insert (Sproc.acceptedEntries t) [] k
    unfold Sproc.parse_stored_procedures
    rw [hh]
    cases hc : ((Sproc.acceptedEntries t).filter (fun kv => decide (kv.1 = k))).getLast? with
    | none => rfl
    | some kv => rfl
  · intro t
    exact nodup_keysAL_foldl_insert (Sproc.acceptedEntries t) [] (by simp [keysAL])

/-- C8 witness: on an export with two `DB.dbo.Dup` blocks, the lookup
returns the record of the second block. -/
theorem C8_last_wins_witness :
    lookupAL "DB.dbo.Dup" (CSP.parse_file c8DupExport) =
      some ⟨"DB", "dbo", "Dup", "SELECT 2", "", ""⟩ ∧
    (((CSP.acceptedRecords c8DupExport).filter
        (fun kv => kv.1 = "DB.dbo.Dup")).getLast?).map Prod.snd =
      some ⟨"DB", "dbo", "Dup", "SELECT 2", "", ""⟩ :=
  ⟨by rw [C8_last_wins.1 c8DupExport "DB.dbo.Dup"]; decide, by decide⟩

/-- C9: equal normalized definitions give equal digests (for any digest
function `h`), so the hash-based change detector never reports such a
pair; and whenever `h` is collision-free on the compared inputs, the
hash-based comparer computes exactly the same result as the direct
normalized-string comparer. -/
theorem C9_hash_refinement :
    (∀ (h : String → String) (p q : CSP.StoredProcedure),
      p.get_normalized_definition = q.get_normalized_definition →
      p.get_definition_hash h = q.get_definition_hash h) ∧
    (∀ (h : String → String) (src tgt : List (String × CSP.StoredProcedure)) (k : String)
      (p q : CSP.StoredProcedure),
      lookupAL k src = some p → lookupAL k tgt = some q →
      p.get_normalized_definition = q.get_normalized_definition →
      lookupAL k (CSP.get_comparison_results h src tgt).different_procs = none) ∧
    (∀ (h : String → String) (src tgt : List (String × CSP.StoredProcedure)),
      (∀ (k : String) (p q : CSP.StoredProcedure),
        lookupAL k src = some p → lookupAL k tgt = some q →
        h p.get_normalized_definition = h q.get_normalized_definition →
        p.get_normalized_definition = q.get_normalized_definition) →
      CSP.get_comparison_results h src tgt = CSP.get_comparison_results_direct src tgt) := by
  refine ⟨?_, ?_, ?_⟩
  · intro h p q heq
    unfold CSP.StoredProcedure.get_definition_hash
    rw [heq]
  · intro h src tgt k p q hp hq heq
    apply lookupAL_filterMap_none _ (csp_changed_keyed h src tgt) k
    simp only [hp, hq]
    rw [if_neg]
    intro hcon
    apply hcon
    unfold CSP.StoredProcedure.get_definition_hash
    rw [heq]
  · intro h src tgt hcf
    unfold CSP.get_comparison_results CSP.get_comparison_results_direct
    congr 1
    apply List.filterMap_congr
    intro a _
    cases hs : lookupAL a src with
    | none => rfl
    | some p =>
      cases ht : lookupAL a tgt with
      | none => rfl
      | some q =>
        simp only
        have hiff : (p.get_definition_hash h ≠ q.get_definition_hash h) ↔
            (p.get_normalized_definition ≠ q.get_normalized_definition) := by
          constructor
          · intro hne hcon
            apply hne
            unfold CSP.StoredProcedure.get_definition_hash
            rw [hcon]
          · intro hne hcon
            exact hne (hcf a p q hs ht hcon)
        rw [if_congr hiff rfl rfl]

/-- C9 witness: two records whose definitions differ only in casing and
spacing, compared under the identity digest. -/
theorem C9_hash_refinement_witness :
    (⟨"D", "s", "P", "SELECT 1", "", ""⟩ : CSP.StoredProcedure).get_normalized_definition =
      (⟨"D", "s", "P", "select  1", "", ""⟩ : CSP.StoredProcedure).get_normalized_definition ∧
    CSP.StoredProcedure.get_definition_hash (fun s => s) ⟨"D", "s", "P", "SELECT 1", "", ""⟩ =
      CSP.StoredProcedure.get_definition_hash (fun s => s) ⟨"D", "s", "P", "select  1", "", ""⟩ ∧
    lookupAL "k" (CSP.get_comparison_results (fun s => s)
        [("k", ⟨"D", "s", "P", "SELECT 1", "", ""⟩)]
        [("k", ⟨"D", "s", "P", "select  1", "", ""⟩)]).different_procs = none ∧
    CSP.get_comparison_results (fun s => s)
        [("k", ⟨"D", "s", "P", "SELECT 1", "", ""⟩)]
        [("k", ⟨"D", "s", "P", "select  1", "", ""⟩)] =
      CSP.get_comparison_results_direct
        [("k", ⟨"D", "s", "P", "SELECT 1", "", ""⟩)]
        [("k", ⟨"D", "s", "P", "select  1", "", ""⟩)] :=
  ⟨by decide,
    C9_hash_refinement.1 (fun s => s) _ _ (by decide),
    C9_hash_refinement.2.1 (fun s => s) _ _ "k" _ _ rfl rfl (by decide),
    C9_hash_refinement.2.2 (fun s => s) _ _ (fun _ _ _ _ _ hh => hh)⟩

/-- C10: the labelled metadata fields are extracted by searching the
*entire* block text, definition span included, and taking the first
match — so a block with no `Name:` metadata line but the text `Name:`
inside its definition body is still accepted, with the name taken from
inside the definition (in `parse_file` as the rest of that line, in
the latest parser as a single token). -/
theorem C10_label_in_definition :
    CSP.parse_file c10Export =
      [("DB.dbo.sneaky remark",
        ⟨"DB", "dbo", "sneaky remark", "-- Name: sneaky remark\nSELECT 2", "", ""⟩)] ∧
    Latest.parse_stored_procedures c10Export =
      [("db.dbo.sneaky", ⟨"DB.dbo.sneaky", "-- Name: sneaky remark\nSELECT 2"⟩)] :=
  ⟨by decide, by decide⟩
